import Mathlib

/-!
# Gaussian elimination with partial pivoting (Gauss.go, Gauss_multithreading.go)

A shallow embedding of the two solvers of the repository over exact rational
arithmetic, followed by theorems about them.

Modelling conventions.

* `float64` values are rationals; `+ - *` are exact.  A division whose divisor
  is exactly zero has no rational result (IEEE gives an infinity or a NaN), so
  the embedding stops there with `Failure.zeroDivisor`.
* `[][]float64` is a list of rows.  `a[i][k]` is `entry a i k`; it is total
  (an absent entry reads as `0`), and the theorems that need an
  `n x (n+1)` matrix say so through `WellShaped`.
* A counted `for` loop is `forLoop` (no early exit) or `forLoopE` (the body may
  return an error, which ends the loop).
* `gaussianEliminationChecked` repeats `gaussianElimination` with the bounds
  check Go makes at every index; an index out of range is the outcome
  `Failure.indexOutOfRange`.
* The loaders work on the lines the scanner yields; `strconv.ParseFloat` is a
  parameter.
* A theorem that says "modelled over exact arithmetic" is about the rational
  embedding.  `F64`, `gaussianEliminationF` and `checkSolutionF` repeat the
  sequential solver and the verifier in binary64, with IEEE rounding, overflow
  and NaN; they settle the runs on which these decide the outcome.
-/

namespace Gauss

/-- A matrix as the Go code holds it: a slice of rows. -/
abbrev Mat := List (List ℚ)

/-- The ways a run of one of the solvers ends without a solution vector.  The
constructors follow the `fmt.Errorf` sites of the two files; `zeroDivisor` is
the embedding's own marker for a float division by exactly zero. -/
inductive Failure where
  /-- Gauss.go line 56: the matrix has no rows. -/
  | emptyMatrix
  /-- Gauss.go line 87: zero pivot, zero row, non-zero right-hand side. -/
  | inconsistentPivot
  /-- Gauss.go line 92: the same test on the last row. -/
  | inconsistentLastRow
  /-- Gauss.go line 119: the sweep after the forward pass. -/
  | inconsistentAfterForward
  /-- Gauss.go line 128: zero pivot met during back-substitution. -/
  | inconsistentBackSubst
  /-- Gauss_multithreading.go line 20: row count differs from column count minus one. -/
  | notSquare
  /-- Gauss_multithreading.go line 47: zero row with non-zero right-hand side. -/
  | inconsistentParallel
  /-- Gauss_multithreading.go line 17: `matrix[0]` on a matrix without rows. -/
  | indexOutOfRange
  /-- A division by exactly zero: the float result is not a rational number. -/
  | zeroDivisor
  deriving DecidableEq, Repr

/-- The errors whose message says that the system is inconsistent
("система несовместна"). -/
def Failure.isInconsistent : Failure → Bool
  | .inconsistentPivot => true
  | .inconsistentLastRow => true
  | .inconsistentAfterForward => true
  | .inconsistentBackSubst => true
  | .inconsistentParallel => true
  | _ => false

/-- The tolerance `1e-9` that both files write as a literal. -/
def tol : ℚ := 1 / 1000000000

/-- The helper `abs` of Gauss.go (lines 160-165); `math.Abs` in the other file. -/
def abs (x : ℚ) : ℚ := if x < 0 then -x else x

/-- The read `a[i][k]`. -/
def entry (a : Mat) (i k : Nat) : ℚ := (a.getD i []).getD k 0

/-- The write `a[j][k] = v`. -/
def setEntry (a : Mat) (j k : Nat) (v : ℚ) : Mat := a.set j ((a.getD j []).set k v)

/-- The exchange `a[i], a[p] = a[p], a[i]` of two row slices. -/
def swapRows (a : Mat) (i p : Nat) : Mat := (a.set i (a.getD p [])).set p (a.getD i [])

/-- The loop `for j := s; j < s + c; j++ { st = body j st }`. -/
def forLoop {σ : Type} (s : Nat) (body : Nat → σ → σ) : Nat → σ → σ
  | 0, st => st
  | c + 1, st => body (s + c) (forLoop s body c st)

/-- The loop `for j := s; j < s + c; j++` whose body may return an error; the
first error ends the loop and is the result. -/
def forLoopE {σ : Type} (s : Nat) (body : Nat → σ → Except Failure σ) :
    Nat → σ → Except Failure σ
  | 0, st => .ok st
  | c + 1, st =>
    match forLoopE s body c st with
    | .error e => .error e
    | .ok st1 => body (s + c) st1

/-- Float division `x / y`, stopping when the divisor is exactly zero. -/
def fdiv (x y : ℚ) : Except Failure ℚ :=
  if y = 0 then .error .zeroDivisor else .ok (x / y)

/-- Pivot search, Gauss.go lines 67-72: the first row of largest absolute value
in column `i` among rows `i .. n-1`. -/
def findPivot (n i : Nat) (a : Mat) : Nat :=
  forLoop (i + 1) (fun j pivot => if abs (entry a j i) > abs (entry a pivot i) then j else pivot)
    (n - (i + 1)) i

/-- The flag `allZerosRow` over columns `lo .. hi-1` of row `i` (Gauss.go lines
79-85 and 111-117): it stays `true` unless some entry exceeds the tolerance. -/
def allZerosRow (a : Mat) (i lo hi : Nat) : Bool :=
  forLoop lo (fun k z => if abs (entry a i k) > tol then false else z) (hi - lo) true

/-- The inner loop `for k := i; k <= n; k++ { a[j][k] -= factor * a[i][k] }`. -/
def subtractRow (n i j : Nat) (factor : ℚ) (a : Mat) : Mat :=
  forLoop i (fun k b => setEntry b j k (entry b j k - factor * entry b i k)) (n + 1 - i) a

/-- The update of one row `j` below the pivot row `i` (Gauss.go lines 102-105, the
goroutine body of Gauss_multithreading.go lines 62-65). -/
def rowUpdate (n i j : Nat) (a : Mat) : Except Failure Mat :=
  match fdiv (entry a j i) (entry a i i) with
  | .error e => .error e
  | .ok factor => .ok (subtractRow n i j factor a)

/-- The elimination loop `for j := i + 1; j < n; j++` of one pivot step. -/
def eliminate (n i : Nat) (a : Mat) : Except Failure Mat :=
  forLoopE (i + 1) (fun j b => rowUpdate n i j b) (n - (i + 1)) a

/-- One iteration of the outer loop of `gaussianElimination` (Gauss.go lines 66-106). -/
def pivotStep (n i : Nat) (a0 : Mat) : Except Failure Mat :=
  let pivot := findPivot n i a0
  let a := swapRows a0 i pivot
  if entry a i i = 0 then
    if allZerosRow a i i n && decide (abs (entry a i n) > tol) then
      .error .inconsistentPivot
    else if i = n - 1 ∧ abs (entry a i i) < tol ∧ abs (entry a i n) > tol then
      .error .inconsistentLastRow
    else if i < n - 1 then
      .ok a
    else
      eliminate n i a
  else
    eliminate n i a

/-- The first `k` iterations of the outer loop (Gauss.go lines 65-107). -/
def forwardSteps (n : Nat) (k : Nat) (a : Mat) : Except Failure Mat :=
  forLoopE 0 (fun i b => pivotStep n i b) k a

/-- The consistency sweep after the forward pass (Gauss.go lines 110-121). -/
def sweep (n : Nat) (a : Mat) : Except Failure Unit :=
  forLoopE 0 (fun i _ =>
    if allZerosRow a i 0 n && decide (abs (entry a i n) > tol) then
      .error .inconsistentAfterForward
    else .ok ()) n ()

/-- The sum `Σ a[i][j] * x[j]` accumulated over `j = lo .. lo+c-1`. -/
def dotFrom (a : Mat) (i : Nat) (x : List ℚ) (lo c : Nat) : ℚ :=
  forLoop lo (fun j sum => sum + entry a i j * x.getD j 0) c 0

/-- Back-substitution (Gauss.go lines 125-138); the first argument counts the
rows still to do, so the row handled is `i` and the loop runs `i = n-1` down to
`0`. -/
def backSubstitute (n : Nat) (a : Mat) : Nat → List ℚ → Except Failure (List ℚ)
  | 0, solution => .ok solution
  | i + 1, solution =>
    if abs (entry a i i) < tol then
      if abs (entry a i n) > tol then .error .inconsistentBackSubst
      else backSubstitute n a i (solution.set i 0)
    else
      match fdiv (entry a i n - dotFrom a i solution (i + 1) (n - (i + 1))) (entry a i i) with
      | .error e => .error e
      | .ok v => backSubstitute n a i (solution.set i v)

/-- The function `gaussianElimination` of Gauss.go (lines 53-141).  The copy of
lines 59-63 is the identity on values. -/
def gaussianElimination (matrix : Mat) : Except Failure (List ℚ) :=
  let n := matrix.length
  if n = 0 then .error .emptyMatrix
  else
    match forwardSteps n n matrix with
    | .error e => .error e
    | .ok a =>
      match sweep n a with
      | .error e => .error e
      | .ok _ => backSubstitute n a n (List.replicate n 0)

/-- The function `checkSolution` of Gauss.go (lines 144-157). -/
def checkSolution (matrix : Mat) (solution : List ℚ) : Bool :=
  let n := matrix.length
  forLoop 0 (fun i ok =>
    if abs (dotFrom matrix i solution 0 n - entry matrix i n) > tol then false else ok) n true

/-- The batch of goroutines of one pivot step (Gauss_multithreading.go lines
58-68): one task per row `j = i+1 .. n-1`, each writing its own row only, all
joined by `wg.Wait()`; as a completed batch it is the loop over `j`. -/
def parallelEliminate (n m i : Nat) (a : Mat) : Except Failure Mat :=
  forLoopE (i + 1) (fun j b => rowUpdate m i j b) (n - (i + 1)) a

/-- One iteration of the outer loop of `solveSLAUParallelGauss`
(Gauss_multithreading.go lines 27-68). -/
def parallelStep (n m i : Nat) (a0 : Mat) : Except Failure Mat :=
  let pivotRow := findPivot n i a0
  let a := if pivotRow ≠ i then swapRows a0 i pivotRow else a0
  if abs (entry a i i) < tol then
    if allZerosRow a i 0 m && decide (abs (entry a i m) > tol) then
      .error .inconsistentParallel
    else if abs (entry a i i) < tol then
      .ok a
    else
      parallelEliminate n m i a
  else
    parallelEliminate n m i a

/-- Back-substitution of the concurrent file (Gauss_multithreading.go lines
73-79): no test of the diagonal entry before the division. -/
def parallelBack (n m : Nat) (a : Mat) : Nat → List ℚ → Except Failure (List ℚ)
  | 0, solution => .ok solution
  | i + 1, solution =>
    match fdiv (entry a i m - dotFrom a i solution (i + 1) (n - (i + 1))) (entry a i i) with
    | .error e => .error e
    | .ok v => parallelBack n m a i (solution.set i v)

/-- The function `solveSLAUParallelGauss` of Gauss_multithreading.go (lines 15-85). -/
def solveSLAUParallelGauss (matrix : Mat) : Except Failure (List ℚ) :=
  match matrix with
  | [] => .error .indexOutOfRange
  | row0 :: _ =>
    let n := matrix.length
    if n + 1 ≠ row0.length then .error .notSquare
    else
      let m := row0.length - 1
      match forLoopE 0 (fun i b => parallelStep n m i b) n matrix with
      | .error e => .error e
      | .ok a => parallelBack n m a n (List.replicate n 0)

/-- Equality of outcomes is decidable, so a run on a concrete matrix can be
compared with its expected outcome. -/
instance instDecidableEqOutcome {α : Type} [DecidableEq α] : DecidableEq (Except Failure α)
  | .ok x, .ok y => if h : x = y then isTrue (by rw [h]) else isFalse (by intro h1; cases h1; exact h rfl)
  | .error x, .error y =>
    if h : x = y then isTrue (by rw [h]) else isFalse (by intro h1; cases h1; exact h rfl)
  | .ok _, .error _ => isFalse (by intro h; cases h)
  | .error _, .ok _ => isFalse (by intro h; cases h)

/-- The shape the solvers expect: `n` rows of `n + 1` entries each. -/
def WellShaped (n : Nat) (a : Mat) : Prop :=
  a.length = n ∧ ∀ r, r < n → (a.getD r []).length = n + 1

/-- The left-hand side `Σ_{c<n} a[r][c] * x[c]` of equation `r`. -/
def lhs (n : Nat) (a : Mat) (x : List ℚ) (r : Nat) : ℚ :=
  ∑ c ∈ Finset.range n, entry a r c * x.getD c 0

/-- The vector `x` satisfies every one of the `n` equations exactly. -/
def Solves (n : Nat) (a : Mat) (x : List ℚ) : Prop :=
  ∀ r, r < n → lhs n a x r = entry a r n

/-- Every entry below the diagonal in the columns before `k` is exactly zero. -/
def LowerZero (n k : Nat) (a : Mat) : Prop :=
  ∀ c r, c < k → c < r → r < n → entry a r c = 0

/-- The working matrix of pivot step `i` after the row exchange of line 75. -/
def swapped (n i : Nat) (a : Mat) : Mat := swapRows a i (findPivot n i a)

/-- A row whose coefficients are all exactly zero and whose right-hand side
exceeds the tolerance. -/
def HasZeroRow (n : Nat) (a : Mat) : Prop :=
  ∃ r, r < n ∧ (∀ c, c < n → entry a r c = 0) ∧ tol < Gauss.abs (entry a r n)

/-- The shape test is decidable, so it can be evaluated on a concrete matrix. -/
instance instDecidableWellShaped (n : Nat) (a : Mat) : Decidable (WellShaped n a) := by
  unfold WellShaped
  infer_instance

/-- The diagonal entry `a[i][i]` that pivot step `i` of `gaussianElimination`
finds after its row exchange (Gauss.go line 77), or `none` when an earlier step
has already returned an error. -/
def pivotAfterSwap (n : Nat) (matrix : Mat) (i : Nat) : Option ℚ :=
  match forwardSteps n i matrix with
  | .ok a => some (entry (swapped n i a) i i)
  | .error _ => none

/-- The first `k` iterations of the outer loop of `solveSLAUParallelGauss`
(Gauss_multithreading.go lines 26-69). -/
def parallelForward (n m : Nat) (k : Nat) (a : Mat) : Except Failure Mat :=
  forLoopE 0 (fun i b => parallelStep n m i b) k a

/-- The row tasks of one pivot step run to completion one after the other in
the order `js` (each task is the goroutine body of Gauss_multithreading.go
lines 60-66). -/
def runTasks (m i : Nat) : List Nat → Mat → Except Failure Mat
  | [], a => .ok a
  | j :: js, a =>
    match rowUpdate m i j a with
    | .error e => .error e
    | .ok b => runTasks m i js b

/-- Back-substitution as section 4.2 of the specification words it (not the
source): the sum is formed first, and a diagonal entry below the tolerance
fails exactly when `|matrix[i][n] - sum|` exceeds the tolerance. -/
def backSubstituteSpec (n : Nat) (a : Mat) : Nat → List ℚ → Except Failure (List ℚ)
  | 0, solution => .ok solution
  | i + 1, solution =>
    if abs (entry a i i) < tol then
      if abs (entry a i n - dotFrom a i solution (i + 1) (n - (i + 1))) > tol then
        .error .inconsistentBackSubst
      else backSubstituteSpec n a i (solution.set i 0)
    else
      match fdiv (entry a i n - dotFrom a i solution (i + 1) (n - (i + 1))) (entry a i i) with
      | .error e => .error e
      | .ok v => backSubstituteSpec n a i (solution.set i v)

/-- The ways `readMatrixFromFile` ends without a matrix, for the parts that
depend on the text of the file (opening and scanning the file are taken to
succeed). -/
inductive LoadFailure where
  /-- A token that `strconv.ParseFloat` rejects (Gauss.go line 31). -/
  | parseError (token : List Char)
  /-- No row was read (Gauss.go line 43). -/
  | emptyFile
  /-- The row count differs from the length of the first row minus one
  (Gauss.go line 46). -/
  | notSquare
  /-- A row whose length differs from that of the first row
  (Gauss_multithreading.go line 128). -/
  | columnMismatch (row : Nat)
  deriving DecidableEq, Repr

/-- The white space of `unicode.IsSpace`, on which `strings.Fields` splits. -/
def isSpace (c : Char) : Bool :=
  decide (c.toNat ∈ [9, 10, 11, 12, 13, 32, 133, 160, 5760, 8232, 8233, 8239, 8287, 12288]) ||
    (decide (8192 ≤ c.toNat) && decide (c.toNat ≤ 8202))

/-- The scan of `strings.Fields`: `cur` is the token being read, reversed. -/
def fieldsFrom : List Char → List Char → List (List Char)
  | [], cur => if cur = [] then [] else [cur.reverse]
  | c :: cs, cur =>
    if isSpace c then
      if cur = [] then fieldsFrom cs [] else cur.reverse :: fieldsFrom cs []
    else fieldsFrom cs (c :: cur)

/-- The call `strings.Fields(line)`: the maximal runs of non-space characters. -/
def fields (line : List Char) : List (List Char) := fieldsFrom line []

/-- The loop over the tokens of one line (Gauss.go lines 27-34); `parse` stands
for `strconv.ParseFloat`, `none` for its error. -/
def parseRow (parse : List Char → Option ℚ) : List (List Char) → Except LoadFailure (List ℚ)
  | [] => .ok []
  | t :: ts =>
    match parse t with
    | none => .error (.parseError t)
    | some v =>
      match parseRow parse ts with
      | .error e => .error e
      | .ok vs => .ok (v :: vs)

/-- The loop over the lines of the file in Gauss.go (lines 21-36): a line equal
to the empty string is skipped, every other line becomes one row. -/
def readRows (parse : List Char → Option ℚ) : List (List Char) → Except LoadFailure Mat
  | [] => .ok []
  | line :: rest =>
    if line = [] then readRows parse rest
    else
      match parseRow parse (fields line) with
      | .error e => .error e
      | .ok row =>
        match readRows parse rest with
        | .error e => .error e
        | .ok m => .ok (row :: m)

/-- The function `readMatrixFromFile` of Gauss.go (lines 12-50) on the lines the
scanner yields. -/
def readMatrixFromFile (parse : List Char → Option ℚ) (lines : List (List Char)) :
    Except LoadFailure Mat :=
  match readRows parse lines with
  | .error e => .error e
  | .ok matrix =>
    if matrix.length = 0 then .error .emptyFile
    else if matrix.length + 1 ≠ (matrix.getD 0 []).length then .error .notSquare
    else .ok matrix

/-- The loop over the lines of the file in Gauss_multithreading.go (lines
100-114): every line becomes one row. -/
def readRowsConcurrent (parse : List Char → Option ℚ) :
    List (List Char) → Except LoadFailure Mat
  | [] => .ok []
  | line :: rest =>
    match parseRow parse (fields line) with
    | .error e => .error e
    | .ok row =>
      match readRowsConcurrent parse rest with
      | .error e => .error e
      | .ok m => .ok (row :: m)

/-- The test of Gauss_multithreading.go lines 125-130: the first row, counted
from `i`, whose length differs from `cols`. -/
def firstMismatch (cols : Nat) : Nat → Mat → Option Nat
  | _, [] => none
  | i, row :: rest => if row.length ≠ cols then some i else firstMismatch cols (i + 1) rest

/-- The function `readMatrixFromFile` of Gauss_multithreading.go (lines 89-133)
on the lines the scanner yields. -/
def readMatrixFromFileConcurrent (parse : List Char → Option ℚ) (lines : List (List Char)) :
    Except LoadFailure Mat :=
  match readRowsConcurrent parse lines with
  | .error e => .error e
  | .ok matrix =>
    match matrix with
    | [] => .error .emptyFile
    | row0 :: rest =>
      match firstMismatch row0.length 1 rest with
      | some i => .error (.columnMismatch (i + 1))
      | none => .ok matrix

/-- The value of a decimal digit. -/
def digitValue (c : Char) : Option Nat :=
  if 48 ≤ c.toNat ∧ c.toNat ≤ 57 then some (c.toNat - 48) else none

/-- A stand-in for `strconv.ParseFloat` on the tokens of the examples: a
non-empty string of decimal digits denotes its value, anything else is taken
as malformed.  The theorems about every input hold for every parser. -/
def parseDecimal (token : List Char) : Option ℚ :=
  if token = [] then none
  else
    (token.foldl (fun acc c =>
      match acc, digitValue c with
      | some v, some d => some (10 * v + d)
      | _, _ => none) (some 0)).map (fun v => (v : ℚ))

/-- Equality of loader outcomes is decidable. -/
instance instDecidableEqLoad : DecidableEq (Except LoadFailure Mat)
  | .ok x, .ok y => if h : x = y then isTrue (by rw [h]) else isFalse (by intro h1; cases h1; exact h rfl)
  | .error x, .error y =>
    if h : x = y then isTrue (by rw [h]) else isFalse (by intro h1; cases h1; exact h rfl)
  | .ok _, .error _ => isFalse (by intro h; cases h)
  | .error _, .ok _ => isFalse (by intro h; cases h)

/-- The read `a[i][k]` with the bounds checks of Go: an index out of range is a
run-time panic, here the outcome `indexOutOfRange`. -/
def readAt (a : Mat) (i k : Nat) : Except Failure ℚ :=
  if i < a.length ∧ k < (a.getD i []).length then .ok (entry a i k) else .error .indexOutOfRange

/-- The write `a[j][k] = v` with the bounds checks of Go. -/
def writeAt (a : Mat) (j k : Nat) (v : ℚ) : Except Failure Mat :=
  if j < a.length ∧ k < (a.getD j []).length then .ok (setEntry a j k v)
  else .error .indexOutOfRange

/-- The exchange `a[i], a[p] = a[p], a[i]` with the bounds checks of Go. -/
def swapRowsChecked (a : Mat) (i p : Nat) : Except Failure Mat :=
  if i < a.length ∧ p < a.length then .ok (swapRows a i p) else .error .indexOutOfRange

/-- The read `solution[j]` with the bounds check of Go. -/
def readVec (x : List ℚ) (j : Nat) : Except Failure ℚ :=
  if j < x.length then .ok (x.getD j 0) else .error .indexOutOfRange

/-- The write `solution[j] = v` with the bounds check of Go. -/
def writeVec (x : List ℚ) (j : Nat) (v : ℚ) : Except Failure (List ℚ) :=
  if j < x.length then .ok (x.set j v) else .error .indexOutOfRange

/-- Pivot search (Gauss.go lines 67-72) with every index checked. -/
def findPivotChecked (n i : Nat) (a : Mat) : Except Failure Nat :=
  forLoopE (i + 1) (fun j pivot =>
    match readAt a j i with
    | .error e => .error e
    | .ok x =>
      match readAt a pivot i with
      | .error e => .error e
      | .ok y => .ok (if abs x > abs y then j else pivot)) (n - (i + 1)) i

/-- The flag `allZerosRow` with every index checked; the reads that `break`
would skip are checked as well. -/
def allZerosRowChecked (a : Mat) (i lo hi : Nat) : Except Failure Bool :=
  forLoopE lo (fun k z =>
    match readAt a i k with
    | .error e => .error e
    | .ok x => .ok (if abs x > tol then false else z)) (hi - lo) true

/-- The inner loop of the elimination (Gauss.go lines 103-105) with every index
checked. -/
def subtractRowChecked (n i j : Nat) (factor : ℚ) (a : Mat) : Except Failure Mat :=
  forLoopE i (fun k b =>
    match readAt b j k with
    | .error e => .error e
    | .ok x =>
      match readAt b i k with
      | .error e => .error e
      | .ok y => writeAt b j k (x - factor * y)) (n + 1 - i) a

/-- The update of row `j` (Gauss.go lines 102-105) with every index checked. -/
def rowUpdateChecked (n i j : Nat) (a : Mat) : Except Failure Mat :=
  match readAt a j i with
  | .error e => .error e
  | .ok x =>
    match readAt a i i with
    | .error e => .error e
    | .ok y =>
      match fdiv x y with
      | .error e => .error e
      | .ok factor => subtractRowChecked n i j factor a

/-- The elimination loop of one pivot step with every index checked. -/
def eliminateChecked (n i : Nat) (a : Mat) : Except Failure Mat :=
  forLoopE (i + 1) (fun j b => rowUpdateChecked n i j b) (n - (i + 1)) a

/-- One iteration of the outer loop (Gauss.go lines 66-106) with every index
checked; the reads of `a[i][n]` that the short-circuit `&&` would skip are
checked as well. -/
def pivotStepChecked (n i : Nat) (a0 : Mat) : Except Failure Mat :=
  match findPivotChecked n i a0 with
  | .error e => .error e
  | .ok pivot =>
    match swapRowsChecked a0 i pivot with
    | .error e => .error e
    | .ok a =>
      match readAt a i i with
      | .error e => .error e
      | .ok d =>
        if d = 0 then
          match allZerosRowChecked a i i n with
          | .error e => .error e
          | .ok z =>
            match readAt a i n with
            | .error e => .error e
            | .ok rhs =>
              if z && decide (abs rhs > tol) then .error .inconsistentPivot
              else if i = n - 1 ∧ abs d < tol ∧ abs rhs > tol then .error .inconsistentLastRow
              else if i < n - 1 then .ok a
              else eliminateChecked n i a
        else eliminateChecked n i a

/-- The consistency sweep (Gauss.go lines 110-121) with every index checked. -/
def sweepChecked (n : Nat) (a : Mat) : Except Failure Unit :=
  forLoopE 0 (fun i _ =>
    match allZerosRowChecked a i 0 n with
    | .error e => .error e
    | .ok z =>
      match readAt a i n with
      | .error e => .error e
      | .ok rhs =>
        if z && decide (abs rhs > tol) then .error .inconsistentAfterForward else .ok ()) n ()

/-- The sum of back-substitution (Gauss.go lines 132-135) with every index
checked. -/
def dotFromChecked (a : Mat) (i : Nat) (x : List ℚ) (lo c : Nat) : Except Failure ℚ :=
  forLoopE lo (fun j sum =>
    match readAt a i j with
    | .error e => .error e
    | .ok v =>
      match readVec x j with
      | .error e => .error e
      | .ok xj => .ok (sum + v * xj)) c 0

/-- Back-substitution (Gauss.go lines 125-138) with every index checked. -/
def backSubstituteChecked (n : Nat) (a : Mat) : Nat → List ℚ → Except Failure (List ℚ)
  | 0, solution => .ok solution
  | i + 1, solution =>
    match readAt a i i with
    | .error e => .error e
    | .ok d =>
      if abs d < tol then
        match readAt a i n with
        | .error e => .error e
        | .ok rhs =>
          if abs rhs > tol then .error .inconsistentBackSubst
          else
            match writeVec solution i 0 with
            | .error e => .error e
            | .ok s1 => backSubstituteChecked n a i s1
      else
        match dotFromChecked a i solution (i + 1) (n - (i + 1)) with
        | .error e => .error e
        | .ok sum =>
          match readAt a i n with
          | .error e => .error e
          | .ok rhs =>
            match fdiv (rhs - sum) d with
            | .error e => .error e
            | .ok v =>
              match writeVec solution i v with
              | .error e => .error e
              | .ok s1 => backSubstituteChecked n a i s1

/-- The function `gaussianElimination` of Gauss.go with every index access and
every division checked: an index out of range ends the run with
`indexOutOfRange`, a zero divisor with `zeroDivisor`. -/
def gaussianEliminationChecked (matrix : Mat) : Except Failure (List ℚ) :=
  let n := matrix.length
  if n = 0 then .error .emptyMatrix
  else
    match forLoopE 0 (fun i b => pivotStepChecked n i b) n matrix with
    | .error e => .error e
    | .ok a =>
      match sweepChecked n a with
      | .error e => .error e
      | .ok _ => backSubstituteChecked n a n (List.replicate n 0)

/-- One iteration of the outer loop of `solveSLAUParallelGauss` in which the
row tasks complete in the order `js` instead of the ascending one. -/
def parallelStepOrdered (n m i : Nat) (js : List Nat) (a0 : Mat) : Except Failure Mat :=
  let pivotRow := findPivot n i a0
  let a := if pivotRow ≠ i then swapRows a0 i pivotRow else a0
  if abs (entry a i i) < tol then
    if allZerosRow a i 0 m && decide (abs (entry a i m) > tol) then
      .error .inconsistentParallel
    else if abs (entry a i i) < tol then
      .ok a
    else
      runTasks m i js a
  else
    runTasks m i js a

/-- A row of `a` that is inconsistent up to the tolerance: its `n` coefficients
are all at most `1e-9` in absolute value and its right-hand side exceeds
`1e-9`. -/
def NearZeroRow (n : Nat) (a : Mat) : Prop :=
  ∃ r, r < n ∧ (∀ c, c < n → |entry a r c| ≤ tol) ∧ tol < |entry a r n|

/-- Whether `x` solves the system exactly is decidable. -/
instance instDecidableSolves (n : Nat) (a : Mat) (x : List ℚ) : Decidable (Solves n a x) := by
  unfold Solves
  infer_instance

/-! ### Binary64 arithmetic

The definitions above compute with exact rationals.  The ones below repeat
`gaussianElimination` and `checkSolution` with the `float64` arithmetic of Go:
every operation is rounded to nearest (ties to even) on its own, without fused
multiply-add (as the Go compiler does on amd64), and overflow, infinities and
NaN behave as IEEE 754 prescribes. -/

/-- A value of Go's `float64` (IEEE 754 binary64): a finite number given by its
sign and magnitude (so that both zeros exist), an infinity, or a NaN. -/
inductive F64 where
  /-- The finite value `±mag`; `negative` is the sign bit. -/
  | fin (negative : Bool) (mag : ℚ)
  /-- Plus or minus infinity. -/
  | infinity (negative : Bool)
  /-- Not a number. -/
  | nan
  deriving DecidableEq, Repr

/-- The power `2^e` for an integer exponent. -/
def pow2 (e : Int) : ℚ :=
  if 0 ≤ e then ((2 ^ e.toNat : Nat) : ℚ) else 1 / ((2 ^ (-e).toNat : Nat) : ℚ)

/-- The number of halvings that bring `n` below `2`, at most `steps` of them;
with `steps = n` this is the integer part of the binary logarithm of `n ≥ 1`. -/
def halvings : Nat → Nat → Nat
  | 0, _ => 0
  | steps + 1, n => if n < 2 then 0 else halvings steps (n / 2) + 1

/-- The exponent `e` with `2^e ≤ m < 2^(e+1)`, for `m > 0`. -/
def floorLog2 (m : ℚ) : Int :=
  let e0 : Int := (halvings m.num.natAbs m.num.natAbs : Int) - (halvings m.den m.den : Int)
  if m < pow2 e0 then e0 - 1 else e0

/-- The integer nearest to `k ≥ 0`, a tie going to the even one. -/
def roundHalfEven (k : ℚ) : Nat :=
  let f : Nat := (k.num / (k.den : Int)).toNat
  let r : ℚ := k - (f : ℚ)
  if r < 1 / 2 then f
  else if 1 / 2 < r then f + 1
  else if f % 2 = 0 then f else f + 1

/-- Rounding of the magnitude `m > 0` with sign `negative` to binary64, to
nearest with ties to even: 53 significant bits, least exponent `-1022`
(so the spacing never falls below `2^-1074`), overflow to infinity from
`2^1024`. -/
def F64.roundMag (negative : Bool) (m : ℚ) : F64 :=
  let e : Int := max (floorLog2 m) (-1022)
  let quantum : ℚ := pow2 (e - 52)
  let r : ℚ := (roundHalfEven (m / quantum) : ℚ) * quantum
  if pow2 1024 ≤ r then .infinity negative else .fin negative r

/-- The binary64 value nearest to the rational `q`: what a decimal literal or
`strconv.ParseFloat` yields. -/
def F64.ofRat (q : ℚ) : F64 :=
  if q = 0 then .fin false 0 else F64.roundMag (decide (q < 0)) (if q < 0 then -q else q)

/-- The number a finite value denotes (`0` for the others). -/
def F64.toRat : F64 → ℚ
  | .fin negative m => if negative then -m else m
  | _ => 0

/-- Unary minus. -/
def F64.neg : F64 → F64
  | .fin s m => .fin (!s) m
  | .infinity s => .infinity (!s)
  | .nan => .nan

/-- The sum `x + y`, correctly rounded. -/
def F64.add : F64 → F64 → F64
  | .nan, _ => .nan
  | _, .nan => .nan
  | .infinity s, .infinity t => if s = t then .infinity s else .nan
  | .infinity s, .fin _ _ => .infinity s
  | .fin _ _, .infinity t => .infinity t
  | .fin s m, .fin t k =>
    let r : ℚ := F64.toRat (.fin s m) + F64.toRat (.fin t k)
    if r = 0 then .fin (s && t) 0 else F64.ofRat r

/-- The difference `x - y`, correctly rounded. -/
def F64.sub (x y : F64) : F64 := F64.add x (F64.neg y)

/-- The product `x * y`, correctly rounded. -/
def F64.mul : F64 → F64 → F64
  | .nan, _ => .nan
  | _, .nan => .nan
  | .infinity s, .infinity t => .infinity (xor s t)
  | .infinity s, .fin t k => if k = 0 then .nan else .infinity (xor s t)
  | .fin s m, .infinity t => if m = 0 then .nan else .infinity (xor s t)
  | .fin s m, .fin t k =>
    if m * k = 0 then .fin (xor s t) 0 else F64.roundMag (xor s t) (m * k)

/-- The quotient `x / y`, correctly rounded; a division by zero gives an
infinity or a NaN, as in Go. -/
def F64.div : F64 → F64 → F64
  | .nan, _ => .nan
  | _, .nan => .nan
  | .infinity _, .infinity _ => .nan
  | .infinity s, .fin t _ => .infinity (xor s t)
  | .fin s _, .infinity t => .fin (xor s t) 0
  | .fin s m, .fin t k =>
    if k = 0 then (if m = 0 then .nan else .infinity (xor s t))
    else if m = 0 then .fin (xor s t) 0
    else F64.roundMag (xor s t) (m / k)

/-- The comparison `x < y`; it is false when either side is a NaN. -/
def F64.lt : F64 → F64 → Bool
  | .nan, _ => false
  | _, .nan => false
  | .infinity s, .infinity t => s && !t
  | .infinity s, .fin _ _ => s
  | .fin _ _, .infinity t => !t
  | .fin s m, .fin t k => decide (F64.toRat (.fin s m) < F64.toRat (.fin t k))

/-- The comparison `x == 0`; both zeros pass. -/
def F64.isZero : F64 → Bool
  | .fin _ m => decide (m = 0)
  | _ => false
/-- A matrix of `float64` entries. -/
abbrev MatF := List (List F64)

/-- The matrix a file or a literal with the decimal entries `m` denotes: every
entry rounded to binary64. -/
def matF (m : Mat) : MatF := m.map (fun row => row.map F64.ofRat)

/-- The numbers a matrix of finite `float64` entries denotes. -/
def ratMat (a : MatF) : Mat := a.map (fun row => row.map F64.toRat)

/-- The `float64` constant `1e-9` of the source. -/
def tolF : F64 := F64.ofRat (1 / 1000000000)

/-- The helper `abs` of Gauss.go (lines 160-165) on `float64`. -/
def absF (x : F64) : F64 := if F64.lt x (.fin false 0) then F64.neg x else x

/-- The read `a[i][k]` of a `float64` matrix. -/
def entryF (a : MatF) (i k : Nat) : F64 := (a.getD i []).getD k (.fin false 0)

/-- The write `a[j][k] = v` of a `float64` matrix. -/
def setEntryF (a : MatF) (j k : Nat) (v : F64) : MatF := a.set j ((a.getD j []).set k v)

/-- The exchange `a[i], a[p] = a[p], a[i]` of a `float64` matrix. -/
def swapRowsF (a : MatF) (i p : Nat) : MatF := (a.set i (a.getD p [])).set p (a.getD i [])

/-- Pivot search (Gauss.go lines 67-72) in `float64`. -/
def findPivotF (n i : Nat) (a : MatF) : Nat :=
  forLoop (i + 1)
    (fun j pivot => if F64.lt (absF (entryF a pivot i)) (absF (entryF a j i)) then j else pivot)
    (n - (i + 1)) i

/-- The flag `allZerosRow` (Gauss.go lines 79-85 and 111-117) in `float64`. -/
def allZerosRowF (a : MatF) (i lo hi : Nat) : Bool :=
  forLoop lo (fun k z => if F64.lt tolF (absF (entryF a i k)) then false else z) (hi - lo) true

/-- The inner loop `a[j][k] -= factor * a[i][k]` (Gauss.go lines 103-105) in
`float64`: the product is rounded, then the difference. -/
def subtractRowF (n i j : Nat) (factor : F64) (a : MatF) : MatF :=
  forLoop i
    (fun k b => setEntryF b j k (F64.sub (entryF b j k) (F64.mul factor (entryF b i k))))
    (n + 1 - i) a

/-- The elimination loop of one pivot step (Gauss.go lines 101-106) in
`float64`. -/
def eliminateF (n i : Nat) (a : MatF) : MatF :=
  forLoop (i + 1)
    (fun j b => subtractRowF n i j (F64.div (entryF b j i) (entryF b i i)) b) (n - (i + 1)) a

/-- One iteration of the outer loop of `gaussianElimination` (Gauss.go lines
66-106) in `float64`. -/
def pivotStepF (n i : Nat) (a0 : MatF) : Except Failure MatF :=
  let pivot := findPivotF n i a0
  let a := swapRowsF a0 i pivot
  if F64.isZero (entryF a i i) then
    if allZerosRowF a i i n && F64.lt tolF (absF (entryF a i n)) then
      .error .inconsistentPivot
    else if i = n - 1 ∧ F64.lt (absF (entryF a i i)) tolF = true ∧
        F64.lt tolF (absF (entryF a i n)) = true then
      .error .inconsistentLastRow
    else if i < n - 1 then
      .ok a
    else
      .ok (eliminateF n i a)
  else
    .ok (eliminateF n i a)

/-- The first `k` iterations of the outer loop (Gauss.go lines 65-107) in
`float64`. -/
def forwardStepsF (n : Nat) (k : Nat) (a : MatF) : Except Failure MatF :=
  forLoopE 0 (fun i b => pivotStepF n i b) k a

/-- The consistency sweep (Gauss.go lines 110-121) in `float64`. -/
def sweepF (n : Nat) (a : MatF) : Except Failure Unit :=
  forLoopE 0 (fun i _ =>
    if allZerosRowF a i 0 n && F64.lt tolF (absF (entryF a i n)) then
      .error .inconsistentAfterForward
    else .ok ()) n ()

/-- The sum `Σ a[i][j] * x[j]` accumulated in `float64` over `j = lo .. lo+c-1`,
starting from `0.0`. -/
def dotFromF (a : MatF) (i : Nat) (x : List F64) (lo c : Nat) : F64 :=
  forLoop lo (fun j sum => F64.add sum (F64.mul (entryF a i j) (x.getD j (.fin false 0)))) c
    (.fin false 0)

/-- Back-substitution (Gauss.go lines 125-138) in `float64`. -/
def backSubstituteF (n : Nat) (a : MatF) : Nat → List F64 → Except Failure (List F64)
  | 0, solution => .ok solution
  | i + 1, solution =>
    if F64.lt (absF (entryF a i i)) tolF then
      if F64.lt tolF (absF (entryF a i n)) then .error .inconsistentBackSubst
      else backSubstituteF n a i (solution.set i (.fin false 0))
    else
      backSubstituteF n a i
        (solution.set i
          (F64.div (F64.sub (entryF a i n) (dotFromF a i solution (i + 1) (n - (i + 1))))
            (entryF a i i)))

/-- The function `gaussianElimination` of Gauss.go (lines 53-141) in `float64`
arithmetic, every operation rounded on its own. -/
def gaussianEliminationF (matrix : MatF) : Except Failure (List F64) :=
  let n := matrix.length
  if n = 0 then .error .emptyMatrix
  else
    match forwardStepsF n n matrix with
    | .error e => .error e
    | .ok a =>
      match sweepF n a with
      | .error e => .error e
      | .ok _ => backSubstituteF n a n (List.replicate n (.fin false 0))

/-- The function `checkSolution` of Gauss.go (lines 144-157) in `float64`. -/
def checkSolutionF (matrix : MatF) (solution : List F64) : Bool :=
  let n := matrix.length
  forLoop 0 (fun i ok =>
    if F64.lt tolF (absF (F64.sub (dotFromF matrix i solution 0 n) (entryF matrix i n)))
    then false else ok) n true

/-- The function `checkSolution` of Gauss.go with the bounds check Go makes at
every index. -/
def checkSolutionChecked (matrix : Mat) (solution : List ℚ) : Except Failure Bool :=
  let n := matrix.length
  forLoopE 0 (fun i ok =>
    match dotFromChecked matrix i solution 0 n with
    | .error e => .error e
    | .ok sum =>
      match readAt matrix i n with
      | .error e => .error e
      | .ok rhs => .ok (if abs (sum - rhs) > tol then false else ok)) n true

/-- Whether a `float64` value is finite. -/
def F64.isFinite : F64 → Bool
  | .fin _ _ => true
  | _ => false

/-- All entries of a `float64` matrix are finite. -/
def allFinite (a : MatF) : Bool := a.all (fun row => row.all F64.isFinite)

/-! ## Basic facts -/

theorem abs_eq (x : ℚ) : Gauss.abs x = |x| := by
  unfold Gauss.abs
  split_ifs with h
  · exact (abs_of_neg h).symm
  · exact (abs_of_nonneg (not_lt.mp h)).symm

theorem tol_pos : 0 < tol := by unfold tol; norm_num

theorem getD_set_list {α : Type} (l : List α) (i j : Nat) (v d : α) (hi : i < l.length) :
    (l.set i v).getD j d = if j = i then v else l.getD j d := by
  rw [List.getD_eq_getElem?_getD, List.getD_eq_getElem?_getD, List.getElem?_set]
  by_cases h : i = j
  · subst h; simp [hi]
  · have h2 : ¬ j = i := fun e => h e.symm
    simp [h, h2]

theorem entry_setEntry (a : Mat) (j k : Nat) (v : ℚ) (r c : Nat)
    (hj : j < a.length) (hk : k < (a.getD j []).length) :
    entry (setEntry a j k v) r c = if r = j ∧ c = k then v else entry a r c := by
  unfold entry setEntry
  rw [getD_set_list _ _ _ _ _ hj]
  by_cases hr : r = j
  · subst hr
    simp only [if_true, true_and]
    rw [getD_set_list _ _ _ _ _ hk]
  · simp [hr]

theorem rowlen_setEntry (a : Mat) (j k : Nat) (v : ℚ) (r : Nat) (hj : j < a.length) :
    ((setEntry a j k v).getD r []).length = (a.getD r []).length := by
  unfold setEntry
  rw [getD_set_list _ _ _ _ _ hj]
  by_cases hr : r = j
  · subst hr; simp
  · simp [hr]

theorem length_setEntry (a : Mat) (j k : Nat) (v : ℚ) : (setEntry a j k v).length = a.length := by
  unfold setEntry; simp

theorem wellShaped_setEntry {n : Nat} {a : Mat} (h : WellShaped n a) (j k : Nat) (v : ℚ)
    (hj : j < n) : WellShaped n (setEntry a j k v) := by
  refine ⟨by rw [length_setEntry]; exact h.1, fun r hr => ?_⟩
  rw [rowlen_setEntry _ _ _ _ _ (by rw [h.1]; exact hj)]
  exact h.2 r hr

theorem getD_swapRows (a : Mat) (i p r : Nat) (hi : i < a.length) (hp : p < a.length) :
    (swapRows a i p).getD r [] = a.getD (if r = p then i else if r = i then p else r) [] := by
  unfold swapRows
  rw [getD_set_list _ _ _ _ _ (by simpa using hp)]
  by_cases h1 : r = p
  · simp [h1]
  · rw [getD_set_list _ _ _ _ _ hi]
    by_cases h2 : r = i
    · subst h2; simp [h1]
    · simp [h1, h2]

theorem entry_swapRows (a : Mat) (i p r c : Nat) (hi : i < a.length) (hp : p < a.length) :
    entry (swapRows a i p) r c = entry a (if r = p then i else if r = i then p else r) c := by
  unfold entry
  rw [getD_swapRows a i p r hi hp]

theorem wellShaped_swapRows {n : Nat} {a : Mat} (h : WellShaped n a) (i p : Nat)
    (hi : i < n) (hp : p < n) : WellShaped n (swapRows a i p) := by
  refine ⟨by unfold swapRows; simp [h.1], fun r hr => ?_⟩
  rw [getD_swapRows a i p r (by rw [h.1]; exact hi) (by rw [h.1]; exact hp)]
  apply h.2
  split_ifs <;> assumption

/-! ## The inner loops -/

theorem forLoop_flag (lo : Nat) (P : Nat → Prop) [DecidablePred P] (c : Nat) :
    forLoop lo (fun k (z : Bool) => if P k then false else z) c true = true ↔
      ∀ k, lo ≤ k → k < lo + c → ¬ P k := by
  induction c with
  | zero =>
    simp only [forLoop, true_iff]
    intro k h1 h2
    omega
  | succ c ih =>
    simp only [forLoop]
    by_cases h : P (lo + c)
    · rw [if_pos h]
      constructor
      · intro hf; cases hf
      · intro hall
        exact absurd h (hall (lo + c) (by omega) (by omega))
    · rw [if_neg h, ih]
      constructor
      · intro hall k h1 h2
        by_cases hk : k = lo + c
        · subst hk; exact h
        · exact hall k h1 (by omega)
      · intro hall k h1 h2
        exact hall k h1 (by omega)

theorem allZerosRow_iff (a : Mat) (i lo hi : Nat) :
    allZerosRow a i lo hi = true ↔ ∀ k, lo ≤ k → k < hi → Gauss.abs (entry a i k) ≤ tol := by
  have h := forLoop_flag lo (fun k => Gauss.abs (entry a i k) > tol) (hi - lo)
  unfold allZerosRow
  rw [h]
  constructor
  · intro h1 k hk1 hk2
    exact not_lt.mp (h1 k hk1 (by omega))
  · intro h1 k hk1 hk2
    exact not_lt.mpr (h1 k hk1 (by omega))

theorem findPivot_loop (i : Nat) (a : Mat) (c : Nat) :
    let p := forLoop (i + 1)
      (fun j pivot => if Gauss.abs (entry a j i) > Gauss.abs (entry a pivot i) then j else pivot) c i
    i ≤ p ∧ p ≤ i + c ∧ ∀ r, i ≤ r → r ≤ i + c → Gauss.abs (entry a r i) ≤ Gauss.abs (entry a p i) := by
  induction c with
  | zero =>
    simp only [forLoop]
    refine ⟨le_refl _, le_refl _, fun r h1 h2 => ?_⟩
    have : r = i := by omega
    subst this
    exact le_refl _
  | succ c ih =>
    simp only [forLoop]
    obtain ⟨h1, h2, h3⟩ := ih
    split_ifs with h
    · refine ⟨by omega, by omega, fun r hr1 hr2 => ?_⟩
      by_cases hr : r = i + 1 + c
      · subst hr; exact le_refl _
      · exact le_trans (h3 r hr1 (by omega)) (le_of_lt h)
    · refine ⟨h1, by omega, fun r hr1 hr2 => ?_⟩
      by_cases hr : r = i + 1 + c
      · subst hr; exact not_lt.mp h
      · exact h3 r hr1 (by omega)

theorem findPivot_spec (n i : Nat) (a : Mat) (hi : i < n) :
    i ≤ findPivot n i a ∧ findPivot n i a < n ∧
      ∀ r, i ≤ r → r < n → Gauss.abs (entry a r i) ≤ Gauss.abs (entry a (findPivot n i a) i) := by
  have h := findPivot_loop i a (n - (i + 1))
  simp only at h
  obtain ⟨h1, h2, h3⟩ := h
  exact ⟨h1, by unfold findPivot; omega, fun r hr1 hr2 => h3 r hr1 (by omega)⟩

theorem dotFrom_eq_sum (a : Mat) (i : Nat) (x : List ℚ) (lo c : Nat) :
    dotFrom a i x lo c = ∑ j ∈ Finset.range c, entry a i (lo + j) * x.getD (lo + j) 0 := by
  unfold dotFrom
  induction c with
  | zero => simp [forLoop]
  | succ c ih =>
    simp only [forLoop]
    rw [ih, Finset.sum_range_succ]

theorem dotFrom_zero_eq_lhs (n : Nat) (a : Mat) (x : List ℚ) (i : Nat) :
    dotFrom a i x 0 n = lhs n a x i := by
  rw [dotFrom_eq_sum]
  unfold lhs
  simp

theorem subtractRow_loop (n i j : Nat) (f : ℚ) (a : Mat) (hs : WellShaped n a)
    (hj : j < n) (c : Nat) (hc : i + c ≤ n + 1) :
    WellShaped n (forLoop i (fun k b => setEntry b j k (entry b j k - f * entry b i k)) c a) ∧
    ∀ r col, entry (forLoop i (fun k b => setEntry b j k (entry b j k - f * entry b i k)) c a) r col =
      if r = j ∧ i ≤ col ∧ col < i + c then entry a r col - f * entry a i col else entry a r col := by
  induction c with
  | zero =>
    refine ⟨hs, fun r col => ?_⟩
    rw [if_neg (by omega)]
    rfl
  | succ c ih =>
    obtain ⟨hb, he⟩ := ih (by omega)
    simp only [forLoop]
    refine ⟨wellShaped_setEntry hb _ _ _ hj, fun r col => ?_⟩
    rw [entry_setEntry _ _ _ _ _ _ (by rw [hb.1]; exact hj) (by rw [hb.2 j hj]; omega)]
    by_cases h1 : r = j ∧ col = i + c
    · rw [if_pos h1, he, he, if_neg (by omega), if_neg (by omega), if_pos (by omega), h1.1, h1.2]
    · rw [if_neg h1, he]
      by_cases h2 : r = j ∧ i ≤ col ∧ col < i + c
      · rw [if_pos h2, if_pos (by omega)]
      · rw [if_neg h2, if_neg (by omega)]

theorem subtractRow_spec (n i j : Nat) (f : ℚ) (a : Mat) (hs : WellShaped n a)
    (hj : j < n) (hi : i ≤ n) :
    WellShaped n (subtractRow n i j f a) ∧ ∀ r col, entry (subtractRow n i j f a) r col =
      if r = j ∧ i ≤ col ∧ col ≤ n then entry a r col - f * entry a i col else entry a r col := by
  have h := subtractRow_loop n i j f a hs hj (n + 1 - i) (by omega)
  refine ⟨h.1, fun r col => ?_⟩
  unfold subtractRow
  rw [h.2]
  by_cases h2 : r = j ∧ i ≤ col ∧ col ≤ n
  · rw [if_pos h2, if_pos (by omega)]
  · rw [if_neg h2, if_neg (by omega)]

theorem forLoopE_succ_ok {σ : Type} (s : Nat) (body : Nat → σ → Except Failure σ) (c : Nat)
    (st st1 : σ) (h : forLoopE s body c st = .ok st1) :
    forLoopE s body (c + 1) st = body (s + c) st1 := by
  simp only [forLoopE, h]

theorem forLoopE_succ_error {σ : Type} (s : Nat) (body : Nat → σ → Except Failure σ) (c : Nat)
    (st : σ) (e : Failure) (h : forLoopE s body c st = .error e) :
    forLoopE s body (c + 1) st = .error e := by
  simp only [forLoopE, h]

theorem fdiv_ok (x y : ℚ) (hy : y ≠ 0) : fdiv x y = .ok (x / y) := by
  unfold fdiv
  rw [if_neg hy]

theorem eliminate_loop (n i : Nat) (a : Mat) (hs : WellShaped n a) (hp : entry a i i ≠ 0)
    (c : Nat) (hc : i + 1 + c ≤ n) :
    ∃ b, forLoopE (i + 1) (fun j b => rowUpdate n i j b) c a = .ok b ∧ WellShaped n b ∧
      ∀ r col, entry b r col =
        if i < r ∧ r < i + 1 + c ∧ i ≤ col ∧ col ≤ n then
          entry a r col - entry a r i / entry a i i * entry a i col
        else entry a r col := by
  induction c with
  | zero =>
    refine ⟨a, rfl, hs, fun r col => ?_⟩
    rw [if_neg (by omega)]
  | succ c ih =>
    obtain ⟨b, hb, hsb, he⟩ := ih (by omega)
    have hpiv : entry b i i = entry a i i := by rw [he, if_neg (by omega)]
    have hrow : entry b (i + 1 + c) i = entry a (i + 1 + c) i := by rw [he, if_neg (by omega)]
    have hsub := subtractRow_spec n i (i + 1 + c) (entry a (i + 1 + c) i / entry a i i) b hsb
      (by omega) (by omega)
    refine ⟨subtractRow n i (i + 1 + c) (entry a (i + 1 + c) i / entry a i i) b, ?_, hsub.1,
      fun r col => ?_⟩
    · rw [forLoopE_succ_ok _ _ _ _ _ hb]
      simp only [rowUpdate, hpiv, hrow, fdiv_ok _ _ hp]
    · rw [hsub.2]
      by_cases h1 : r = i + 1 + c ∧ i ≤ col ∧ col ≤ n
      · rw [if_pos h1, if_pos (by omega), he, he, if_neg (by omega), if_neg (by omega), h1.1]
      · rw [if_neg h1, he]
        by_cases h2 : i < r ∧ r < i + 1 + c ∧ i ≤ col ∧ col ≤ n
        · rw [if_pos h2, if_pos (by omega)]
        · rw [if_neg h2, if_neg (by omega)]

theorem eliminate_spec (n i : Nat) (a : Mat) (hs : WellShaped n a) (hi : i < n)
    (hp : entry a i i ≠ 0) :
    ∃ b, eliminate n i a = .ok b ∧ WellShaped n b ∧
      ∀ r col, entry b r col =
        if i < r ∧ r < n ∧ col ≤ n then
          (if i ≤ col then entry a r col - entry a r i / entry a i i * entry a i col
           else entry a r col)
        else entry a r col := by
  obtain ⟨b, hb, hsb, he⟩ := eliminate_loop n i a hs hp (n - (i + 1)) (by omega)
  refine ⟨b, hb, hsb, fun r col => ?_⟩
  rw [he]
  by_cases h1 : i < r ∧ r < n ∧ col ≤ n
  · rw [if_pos h1]
    by_cases h2 : i ≤ col
    · rw [if_pos h2, if_pos (by omega)]
    · rw [if_neg h2, if_neg (by omega)]
  · rw [if_neg h1, if_neg (by omega)]

theorem eliminate_last (n i : Nat) (a : Mat) (hi : n ≤ i + 1) : eliminate n i a = .ok a := by
  unfold eliminate
  have : n - (i + 1) = 0 := by omega
  rw [this]
  rfl

/-! ## One pivot step -/

theorem wellShaped_swapped {n : Nat} {a : Mat} (hs : WellShaped n a) (i : Nat) (hi : i < n) :
    WellShaped n (swapped n i a) :=
  wellShaped_swapRows hs i _ hi (findPivot_spec n i a hi).2.1

theorem entry_swapped {n : Nat} {a : Mat} (hs : WellShaped n a) (i : Nat) (hi : i < n)
    (r c : Nat) :
    entry (swapped n i a) r c =
      entry a (if r = findPivot n i a then i else if r = i then findPivot n i a else r) c := by
  unfold swapped
  rw [entry_swapRows a i _ r c (by rw [hs.1]; exact hi)
    (by rw [hs.1]; exact (findPivot_spec n i a hi).2.1)]

theorem swapped_pivot_max {n : Nat} {a : Mat} (hs : WellShaped n a) (i : Nat) (hi : i < n)
    (r : Nat) (hr1 : i ≤ r) (hr2 : r < n) :
    Gauss.abs (entry (swapped n i a) r i) ≤ Gauss.abs (entry (swapped n i a) i i) := by
  obtain ⟨h1, h2, h3⟩ := findPivot_spec n i a hi
  rw [entry_swapped hs i hi, entry_swapped hs i hi]
  have e : (if i = findPivot n i a then i else if i = i then findPivot n i a else i)
      = findPivot n i a := by
    by_cases h : i = findPivot n i a
    · rw [if_pos h]; exact h
    · rw [if_neg h, if_pos rfl]
  rw [e]
  apply h3
  · split_ifs <;> omega
  · split_ifs <;> omega

theorem swapped_column_zero {n : Nat} {a : Mat} (hs : WellShaped n a) (i : Nat) (hi : i < n)
    (hz : entry (swapped n i a) i i = 0) (r : Nat) (hr1 : i ≤ r) (hr2 : r < n) :
    entry (swapped n i a) r i = 0 := by
  have h := swapped_pivot_max hs i hi r hr1 hr2
  rw [hz, abs_eq, abs_eq, abs_zero] at h
  exact abs_nonpos_iff.mp h

theorem lowerZero_swapped {n : Nat} {a : Mat} (hs : WellShaped n a) (i : Nat) (hi : i < n)
    (hl : LowerZero n i a) : LowerZero n i (swapped n i a) := by
  obtain ⟨h1, h2, _⟩ := findPivot_spec n i a hi
  intro c r hc hcr hr
  rw [entry_swapped hs i hi]
  apply hl c _ hc
  · split_ifs <;> omega
  · split_ifs <;> omega

theorem lhs_congr_row (n : Nat) (a b : Mat) (x : List ℚ) (r r1 : Nat)
    (h : ∀ c, c < n → entry b r c = entry a r1 c) : lhs n b x r = lhs n a x r1 := by
  unfold lhs
  apply Finset.sum_congr rfl
  intro c hc
  rw [h c (Finset.mem_range.mp hc)]

theorem solves_swapped {n : Nat} {a : Mat} (hs : WellShaped n a) (i : Nat) (hi : i < n)
    (x : List ℚ) : Solves n (swapped n i a) x ↔ Solves n a x := by
  obtain ⟨h1, h2, _⟩ := findPivot_spec n i a hi
  have key : ∀ r, lhs n (swapped n i a) x r = entry (swapped n i a) r n ↔
      lhs n a x (if r = findPivot n i a then i else if r = i then findPivot n i a else r)
        = entry a (if r = findPivot n i a then i else if r = i then findPivot n i a else r) n := by
    intro r
    rw [lhs_congr_row n a (swapped n i a) x r _ (fun c _ => entry_swapped hs i hi r c),
      entry_swapped hs i hi]
  constructor
  · intro h r hr
    by_cases e1 : r = findPivot n i a
    · have := (key i).mp (h i hi)
      by_cases e2 : i = findPivot n i a
      · rw [if_pos e2] at this
        rw [e1, ← e2]; exact this
      · rw [if_neg e2, if_pos rfl] at this
        rw [e1]; exact this
    · by_cases e2 : r = i
      · have := (key (findPivot n i a)).mp (h _ h2)
        rw [if_pos rfl] at this
        rw [e2]; exact this
      · have := (key r).mp (h r hr)
        rw [if_neg e1, if_neg e2] at this
        exact this
  · intro h r hr
    apply (key r).mpr
    apply h
    split_ifs <;> omega

theorem pivotStep_ok_cases {n i : Nat} {a b : Mat} (h : pivotStep n i a = .ok b) :
    (entry (swapped n i a) i i = 0 ∧ b = swapped n i a) ∨
      (entry (swapped n i a) i i ≠ 0 ∧ eliminate n i (swapped n i a) = .ok b) := by
  unfold pivotStep at h
  simp only [] at h
  by_cases hz : entry (swapped n i a) i i = 0
  · left
    refine ⟨hz, ?_⟩
    unfold swapped at hz
    rw [if_pos hz] at h
    split_ifs at h with h1 h2 h3
    · exact (Except.ok.inj h).symm
    · rw [eliminate_last n i _ (by omega)] at h
      exact (Except.ok.inj h).symm
  · right
    refine ⟨hz, ?_⟩
    unfold swapped at hz
    rw [if_neg hz] at h
    exact h

theorem pivotStep_error_cases {n i : Nat} {a : Mat} {e : Failure} (hs : WellShaped n a)
    (hi : i < n) (h : pivotStep n i a = .error e) :
    entry (swapped n i a) i i = 0 ∧ tol < Gauss.abs (entry (swapped n i a) i n) ∧
      ((e = .inconsistentPivot ∧ allZerosRow (swapped n i a) i i n = true) ∨
        (e = .inconsistentLastRow ∧ i = n - 1)) := by
  unfold pivotStep at h
  simp only [] at h
  by_cases hz : entry (swapped n i a) i i = 0
  · refine ⟨hz, ?_⟩
    unfold swapped at hz
    rw [if_pos hz] at h
    split_ifs at h with h1 h2 h3
    · simp only [Bool.and_eq_true, decide_eq_true_eq] at h1
      exact ⟨h1.2, Or.inl ⟨(Except.error.inj h).symm, h1.1⟩⟩
    · exact ⟨h2.2.2, Or.inr ⟨(Except.error.inj h).symm, h2.1⟩⟩
    · rw [eliminate_last n i _ (by omega)] at h
      cases h
  · exfalso
    obtain ⟨b, hb, _⟩ := eliminate_spec n i _ (wellShaped_swapped hs i hi) hi hz
    unfold swapped at hz hb
    rw [if_neg hz, hb] at h
    cases h

/-- What the elimination loop of step `i` does to a matrix whose row `i` is zero
before column `i`: rows up to `i` stay, every row below loses its multiple of
row `i` in every column. -/
theorem eliminate_rows {n i : Nat} {s b : Mat} (hs : WellShaped n s) (hi : i < n)
    (hl : LowerZero n i s) (hp : entry s i i ≠ 0) (h : eliminate n i s = .ok b) :
    WellShaped n b ∧ (∀ r col, r ≤ i → entry b r col = entry s r col) ∧
      ∀ r col, i < r → r < n → col ≤ n →
        entry b r col = entry s r col - entry s r i / entry s i i * entry s i col := by
  obtain ⟨b1, hb1, hsb, he⟩ := eliminate_spec n i s hs hi hp
  rw [hb1] at h
  have hb : b1 = b := Except.ok.inj h
  subst hb
  refine ⟨hsb, fun r col hr => ?_, fun r col hr1 hr2 hc => ?_⟩
  · rw [he, if_neg (by omega)]
  · rw [he, if_pos ⟨hr1, hr2, hc⟩]
    by_cases h2 : i ≤ col
    · rw [if_pos h2]
    · rw [if_neg h2, hl col i (by omega) (by omega) hi]
      ring

theorem lhs_eliminate {n i : Nat} {s b : Mat} (x : List ℚ) (r : Nat) (f : ℚ)
    (h : ∀ col, col ≤ n → entry b r col = entry s r col - f * entry s i col) :
    lhs n b x r = lhs n s x r - f * lhs n s x i := by
  unfold lhs
  rw [Finset.mul_sum, ← Finset.sum_sub_distrib]
  apply Finset.sum_congr rfl
  intro c hc
  rw [h c (le_of_lt (Finset.mem_range.mp hc))]
  ring

theorem solves_eliminate {n i : Nat} {s b : Mat} (hs : WellShaped n s) (hi : i < n)
    (hl : LowerZero n i s) (hp : entry s i i ≠ 0) (h : eliminate n i s = .ok b) (x : List ℚ) :
    Solves n b x ↔ Solves n s x := by
  obtain ⟨_, hsame, hsub⟩ := eliminate_rows hs hi hl hp h
  have hrow_i : lhs n b x i = lhs n s x i :=
    lhs_congr_row n s b x i i (fun c _ => hsame i c (le_refl _))
  constructor
  · intro hb r hr
    by_cases hri : r ≤ i
    · have := hb r hr
      rw [lhs_congr_row n s b x r r (fun c _ => hsame r c hri), hsame r n hri] at this
      exact this
    · have hr1 : i < r := by omega
      have h1 := hb r hr
      have h2 := hb i hi
      rw [hrow_i, hsame i n (le_refl _)] at h2
      rw [lhs_eliminate x r (entry s r i / entry s i i) (fun col hc => hsub r col hr1 hr hc),
        hsub r n hr1 hr (le_refl _), h2] at h1
      linarith
  · intro hsx r hr
    by_cases hri : r ≤ i
    · rw [lhs_congr_row n s b x r r (fun c _ => hsame r c hri), hsame r n hri]
      exact hsx r hr
    · have hr1 : i < r := by omega
      rw [lhs_eliminate x r (entry s r i / entry s i i) (fun col hc => hsub r col hr1 hr hc),
        hsub r n hr1 hr (le_refl _), hsx r hr, hsx i hi]

theorem lowerZero_eliminate {n i : Nat} {s b : Mat} (hs : WellShaped n s) (hi : i < n)
    (hl : LowerZero n i s) (hp : entry s i i ≠ 0) (h : eliminate n i s = .ok b) :
    LowerZero n (i + 1) b := by
  obtain ⟨_, hsame, hsub⟩ := eliminate_rows hs hi hl hp h
  intro c r hc hcr hr
  by_cases hri : r ≤ i
  · rw [hsame r c hri]
    exact hl c r (by omega) hcr hr
  · have hr1 : i < r := by omega
    rw [hsub r c hr1 hr (by omega)]
    by_cases hci : c = i
    · subst hci
      rw [div_mul_cancel₀ _ hp, sub_self]
    · rw [hl c r (by omega) hcr hr, hl c i (by omega) (by omega) hi]
      ring

theorem pivotStep_invariants {n i : Nat} {a b : Mat} (hs : WellShaped n a) (hi : i < n)
    (hl : LowerZero n i a) (h : pivotStep n i a = .ok b) :
    WellShaped n b ∧ LowerZero n (i + 1) b ∧ ∀ x, Solves n b x ↔ Solves n a x := by
  have hss := wellShaped_swapped hs i hi
  have hls := lowerZero_swapped hs i hi hl
  rcases pivotStep_ok_cases h with ⟨hz, hb⟩ | ⟨hz, hb⟩
  · subst hb
    refine ⟨hss, ?_, fun x => solves_swapped hs i hi x⟩
    intro c r hc hcr hr
    by_cases hci : c = i
    · subst hci
      exact swapped_column_zero hs c hi hz r (by omega) hr
    · exact hls c r (by omega) hcr hr
  · refine ⟨(eliminate_rows hss hi hls hz hb).1, lowerZero_eliminate hss hi hls hz hb, fun x => ?_⟩
    rw [solves_eliminate hss hi hls hz hb x, solves_swapped hs i hi x]

/-! ## The forward pass -/

theorem forwardSteps_invariants {n : Nat} {m : Mat} (hs : WellShaped n m) (k : Nat) (hk : k ≤ n) :
    (∀ a, forwardSteps n k m = .ok a →
      WellShaped n a ∧ LowerZero n k a ∧ ∀ x, Solves n a x ↔ Solves n m x) ∧
    (∀ e, forwardSteps n k m = .error e → e = .inconsistentPivot ∨ e = .inconsistentLastRow) := by
  induction k with
  | zero =>
    refine ⟨fun a h => ?_, fun e h => ?_⟩
    · have : m = a := Except.ok.inj h
      subst this
      exact ⟨hs, fun c r hc _ _ => absurd hc (Nat.not_lt_zero c), fun x => Iff.rfl⟩
    · cases h
  | succ k ih =>
    obtain ⟨ihok, iherr⟩ := ih (by omega)
    unfold forwardSteps at ihok iherr ⊢
    cases hprev : forLoopE 0 (fun i b => pivotStep n i b) k m with
    | error e0 =>
      rw [forLoopE_succ_error _ _ _ _ _ hprev]
      refine ⟨fun a h => (by cases h), fun e h => ?_⟩
      have : e0 = e := Except.error.inj h
      subst this
      exact iherr e0 hprev
    | ok a0 =>
      rw [forLoopE_succ_ok _ _ _ _ _ hprev]
      obtain ⟨hs0, hl0, hsol0⟩ := ihok a0 hprev
      rw [Nat.zero_add]
      refine ⟨fun a h => ?_, fun e h => ?_⟩
      · obtain ⟨h1, h2, h3⟩ := pivotStep_invariants hs0 (by omega) hl0 h
        exact ⟨h1, h2, fun x => (h3 x).trans (hsol0 x)⟩
      · obtain ⟨_, _, h3⟩ := pivotStep_error_cases hs0 (by omega) h
        rcases h3 with ⟨h3, _⟩ | ⟨h3, _⟩
        · exact Or.inl h3
        · exact Or.inr h3

/-! ## The sweep, back-substitution and the verifier -/

theorem sweep_loop (n : Nat) (a : Mat) (c : Nat) :
    (forLoopE 0 (fun i (_ : Unit) =>
        if allZerosRow a i 0 n && decide (Gauss.abs (entry a i n) > tol) then
          Except.error Failure.inconsistentAfterForward
        else Except.ok ()) c () = .ok () ∧
      ∀ i, i < c → ¬ (allZerosRow a i 0 n = true ∧ tol < Gauss.abs (entry a i n))) ∨
    (forLoopE 0 (fun i (_ : Unit) =>
        if allZerosRow a i 0 n && decide (Gauss.abs (entry a i n) > tol) then
          Except.error Failure.inconsistentAfterForward
        else Except.ok ()) c () = .error .inconsistentAfterForward ∧
      ∃ i, i < c ∧ allZerosRow a i 0 n = true ∧ tol < Gauss.abs (entry a i n)) := by
  induction c with
  | zero =>
    left
    exact ⟨rfl, fun i hi => absurd hi (Nat.not_lt_zero i)⟩
  | succ c ih =>
    rcases ih with ⟨h1, h2⟩ | ⟨h1, i, hi, h2⟩
    · rw [forLoopE_succ_ok _ _ _ _ _ h1, Nat.zero_add]
      by_cases hc : allZerosRow a c 0 n = true ∧ tol < Gauss.abs (entry a c n)
      · right
        refine ⟨?_, c, by omega, hc⟩
        rw [if_pos]
        simp only [Bool.and_eq_true, decide_eq_true_eq]
        exact hc
      · left
        refine ⟨?_, fun i hi => ?_⟩
        · rw [if_neg]
          simp only [Bool.and_eq_true, decide_eq_true_eq]
          exact hc
        · by_cases hic : i = c
          · subst hic; exact hc
          · exact h2 i (by omega)
    · right
      rw [forLoopE_succ_error _ _ _ _ _ h1]
      exact ⟨rfl, i, by omega, h2⟩

theorem sweep_cases (n : Nat) (a : Mat) :
    (sweep n a = .ok () ∧
      ∀ i, i < n → ¬ (allZerosRow a i 0 n = true ∧ tol < Gauss.abs (entry a i n))) ∨
    (sweep n a = .error .inconsistentAfterForward ∧
      ∃ i, i < n ∧ allZerosRow a i 0 n = true ∧ tol < Gauss.abs (entry a i n)) :=
  sweep_loop n a n

theorem dotFrom_congr (a : Mat) (i : Nat) (x y : List ℚ) (lo c : Nat)
    (h : ∀ j, lo ≤ j → j < lo + c → x.getD j 0 = y.getD j 0) :
    dotFrom a i x lo c = dotFrom a i y lo c := by
  rw [dotFrom_eq_sum, dotFrom_eq_sum]
  apply Finset.sum_congr rfl
  intro j hj
  rw [h (lo + j) (by omega) (by have := Finset.mem_range.mp hj; omega)]

theorem lhs_split (n : Nat) (a : Mat) (x : List ℚ) (i : Nat) (hi : i < n) :
    lhs n a x i = (∑ c ∈ Finset.range i, entry a i c * x.getD c 0) + entry a i i * x.getD i 0
      + dotFrom a i x (i + 1) (n - (i + 1)) := by
  unfold lhs
  rw [dotFrom_eq_sum,
    ← Finset.sum_Ico_eq_sum_range (fun c => entry a i c * x.getD c 0) (i + 1) n,
    ← Finset.sum_range_succ (fun c => entry a i c * x.getD c 0) i,
    Finset.sum_range_add_sum_Ico _ (by omega)]

theorem lhs_triangular (n : Nat) (a : Mat) (x : List ℚ) (i : Nat) (hi : i < n)
    (hl : LowerZero n n a) :
    lhs n a x i = entry a i i * x.getD i 0 + dotFrom a i x (i + 1) (n - (i + 1)) := by
  rw [lhs_split n a x i hi, Finset.sum_eq_zero, zero_add]
  intro c hc
  rw [hl c i (by have := Finset.mem_range.mp hc; omega) (Finset.mem_range.mp hc) hi, zero_mul]

theorem abs_pos_ne_zero {q : ℚ} (h : tol < Gauss.abs q) : q ≠ 0 := by
  intro hq
  rw [hq, abs_eq, abs_zero] at h
  exact absurd h (not_lt.mpr (le_of_lt tol_pos))

theorem backSubstitute_ok (n : Nat) (a : Mat) (hd : ∀ i, i < n → tol < Gauss.abs (entry a i i)) :
    ∀ c, c ≤ n → ∀ sol : List ℚ, sol.length = n →
      ∃ x, backSubstitute n a c sol = .ok x ∧ x.length = n ∧
        (∀ j, c ≤ j → x.getD j 0 = sol.getD j 0) ∧
        ∀ i, i < c →
          entry a i i * x.getD i 0 + dotFrom a i x (i + 1) (n - (i + 1)) = entry a i n := by
  intro c
  induction c with
  | zero =>
    intro _ sol hsol
    exact ⟨sol, rfl, hsol, fun j _ => rfl, fun i hi => absurd hi (Nat.not_lt_zero i)⟩
  | succ c ih =>
    intro hc sol hsol
    have hne : entry a c c ≠ 0 := abs_pos_ne_zero (hd c (by omega))
    obtain ⟨x, hx, hlen, hkeep, hrows⟩ := ih (by omega)
      (sol.set c ((entry a c n - dotFrom a c sol (c + 1) (n - (c + 1))) / entry a c c))
      (by rw [List.length_set]; exact hsol)
    refine ⟨x, ?_, hlen, fun j hj => ?_, fun i hi => ?_⟩
    · unfold backSubstitute
      rw [if_neg (not_lt.mpr (le_of_lt (hd c (by omega)))), fdiv_ok _ _ hne]
      exact hx
    · rw [hkeep j (by omega), getD_set_list _ _ _ _ _ (by omega), if_neg (by omega)]
    · by_cases hic : i = c
      · subst hic
        have hxi : x.getD i 0 =
            (entry a i n - dotFrom a i sol (i + 1) (n - (i + 1))) / entry a i i := by
          rw [hkeep i (le_refl _), getD_set_list _ _ _ _ _ (by omega), if_pos rfl]
        have hdot : dotFrom a i x (i + 1) (n - (i + 1)) = dotFrom a i sol (i + 1) (n - (i + 1)) := by
          apply dotFrom_congr
          intro j hj1 hj2
          rw [hkeep j (by omega), getD_set_list _ _ _ _ _ (by omega), if_neg (by omega)]
        rw [hxi, hdot, mul_div_cancel₀ _ hne]
        ring
      · exact hrows i (by omega)

theorem solves_of_triangular (n : Nat) (a : Mat) (x : List ℚ) (hl : LowerZero n n a)
    (h : ∀ i, i < n →
      entry a i i * x.getD i 0 + dotFrom a i x (i + 1) (n - (i + 1)) = entry a i n) :
    Solves n a x := by
  intro i hi
  rw [lhs_triangular n a x i hi hl]
  exact h i hi

theorem checkSolution_iff_residual (matrix : Mat) (solution : List ℚ) :
    checkSolution matrix solution = true ↔
      ∀ i, i < matrix.length →
        Gauss.abs (lhs matrix.length matrix solution i - entry matrix i matrix.length) ≤ tol := by
  unfold checkSolution
  simp only []
  rw [forLoop_flag]
  constructor
  · intro h i hi
    have := h i (Nat.zero_le i) (by omega)
    rw [dotFrom_zero_eq_lhs] at this
    exact not_lt.mp this
  · intro h i _ hi
    rw [dotFrom_zero_eq_lhs]
    exact not_lt.mpr (h i (by omega))

theorem checkSolution_of_solves (matrix : Mat) (x : List ℚ) (h : Solves matrix.length matrix x) :
    checkSolution matrix x = true := by
  rw [checkSolution_iff_residual]
  intro i hi
  rw [h i hi, sub_self, abs_eq, abs_zero]
  exact le_of_lt tol_pos

/-! ## Consequences for whole runs -/

theorem forLoopE_error_split {σ : Type} (s : Nat) (body : Nat → σ → Except Failure σ) (c : Nat)
    (st : σ) (e : Failure) (h : forLoopE s body c st = .error e) :
    ∃ k st1, k < c ∧ forLoopE s body k st = .ok st1 ∧ body (s + k) st1 = .error e := by
  induction c with
  | zero => cases h
  | succ c ih =>
    cases hprev : forLoopE s body c st with
    | error e0 =>
      rw [forLoopE_succ_error _ _ _ _ _ hprev] at h
      have : e0 = e := Except.error.inj h
      subst this
      obtain ⟨k, st1, hk, h1, h2⟩ := ih hprev
      exact ⟨k, st1, by omega, h1, h2⟩
    | ok st1 =>
      rw [forLoopE_succ_ok _ _ _ _ _ hprev] at h
      exact ⟨c, st1, by omega, hprev, h⟩

theorem hasZeroRow_swapped {n : Nat} {a : Mat} (hs : WellShaped n a) (i : Nat) (hi : i < n)
    (h : HasZeroRow n a) : HasZeroRow n (swapped n i a) := by
  obtain ⟨h1, h2, _⟩ := findPivot_spec n i a hi
  obtain ⟨r, hr, hz, hb⟩ := h
  have key : ∀ r1, r1 < n →
      (if r1 = findPivot n i a then i else if r1 = i then findPivot n i a else r1) = r →
      HasZeroRow n (swapped n i a) := by
    intro r1 hr1 e
    refine ⟨r1, hr1, fun c hc => ?_, ?_⟩
    · rw [entry_swapped hs i hi, e]; exact hz c hc
    · rw [entry_swapped hs i hi, e]; exact hb
  by_cases e1 : r = findPivot n i a
  · apply key i hi
    by_cases e2 : i = findPivot n i a
    · rw [if_pos e2, e1, ← e2]
    · rw [if_neg e2, if_pos rfl, e1]
  · by_cases e2 : r = i
    · apply key (findPivot n i a) h2
      rw [if_pos rfl, e2]
    · apply key r hr
      rw [if_neg e1, if_neg e2]

theorem hasZeroRow_pivotStep {n i : Nat} {a b : Mat} (hs : WellShaped n a) (hi : i < n)
    (hz : HasZeroRow n a) (h : pivotStep n i a = .ok b) : HasZeroRow n b := by
  have hss := wellShaped_swapped hs i hi
  have hzs := hasZeroRow_swapped hs i hi hz
  rcases pivotStep_ok_cases h with ⟨_, hb⟩ | ⟨hp, hb⟩
  · rw [hb]; exact hzs
  · obtain ⟨b1, hb1, _, he⟩ := eliminate_spec n i _ hss hi hp
    rw [hb1] at hb
    have : b1 = b := Except.ok.inj hb
    subst this
    obtain ⟨r, hr, hzero, hrhs⟩ := hzs
    have hrow : ∀ c, entry b1 r c = entry (swapped n i a) r c := by
      intro c
      rw [he, hzero i hi]
      split_ifs <;> simp
    exact ⟨r, hr, fun c hc => by rw [hrow, hzero c hc], by rw [hrow]; exact hrhs⟩

theorem hasZeroRow_forwardSteps {n : Nat} {m : Mat} (hs : WellShaped n m) (hz : HasZeroRow n m)
    (k : Nat) (hk : k ≤ n) (a : Mat) (h : forwardSteps n k m = .ok a) : HasZeroRow n a := by
  induction k generalizing a with
  | zero =>
    have : m = a := Except.ok.inj h
    rw [← this]; exact hz
  | succ k ih =>
    unfold forwardSteps at h ih
    cases hprev : forLoopE 0 (fun i b => pivotStep n i b) k m with
    | error e0 =>
      rw [forLoopE_succ_error _ _ _ _ _ hprev] at h
      cases h
    | ok a0 =>
      rw [forLoopE_succ_ok _ _ _ _ _ hprev, Nat.zero_add] at h
      have hs0 := ((forwardSteps_invariants hs k (by omega)).1 a0 hprev).1
      exact hasZeroRow_pivotStep hs0 (by omega) (ih (by omega) a0 hprev) h

/-- A run of `gaussianElimination` whose forward pass ends in a triangular
matrix with every diagonal entry above the tolerance returns an exact solution. -/
theorem gaussianElimination_exact {n : Nat} {m a : Mat} (hs : WellShaped n m) (hn : 1 ≤ n)
    (hf : forwardSteps n n m = .ok a) (hd : ∀ i, i < n → tol < Gauss.abs (entry a i i)) :
    ∃ x, gaussianElimination m = .ok x ∧ x.length = n ∧ Solves n a x ∧ Solves n m x := by
  obtain ⟨_, hl, hsol⟩ := (forwardSteps_invariants hs n (le_refl _)).1 a hf
  obtain ⟨x, hx, hlen, _, hrows⟩ := backSubstitute_ok n a hd n (le_refl _) (List.replicate n 0)
    (by simp)
  have hsa : Solves n a x := solves_of_triangular n a x hl hrows
  refine ⟨x, ?_, hlen, hsa, (hsol x).mp hsa⟩
  have hsw : sweep n a = .ok () := by
    rcases sweep_cases n a with ⟨h1, _⟩ | ⟨_, i, hi, hz, _⟩
    · exact h1
    · exfalso
      have := (allZerosRow_iff a i 0 n).mp hz i (Nat.zero_le i) hi
      exact absurd (hd i hi) (not_lt.mpr this)
  unfold gaussianElimination
  simp only [hs.1]
  rw [if_neg (by omega), hf]
  simp only [hsw]
  exact hx

theorem triangular_unique (n : Nat) (a : Mat) (x y : List ℚ) (hl : LowerZero n n a)
    (hd : ∀ i, i < n → entry a i i ≠ 0) (hx : Solves n a x) (hy : Solves n a y) :
    ∀ d i, i < n → n ≤ i + d → x.getD i 0 = y.getD i 0 := by
  intro d
  induction d with
  | zero => intro i h1 h2; omega
  | succ d ih =>
    intro i hi hid
    have h1 := hx i hi
    have h2 := hy i hi
    rw [lhs_triangular n a x i hi hl] at h1
    rw [lhs_triangular n a y i hi hl] at h2
    have hdot : dotFrom a i x (i + 1) (n - (i + 1)) = dotFrom a i y (i + 1) (n - (i + 1)) := by
      apply dotFrom_congr
      intro j hj1 hj2
      exact ih j (by omega) (by omega)
    rw [hdot] at h1
    have : entry a i i * x.getD i 0 = entry a i i * y.getD i 0 := by linarith
    exact mul_left_cancel₀ (hd i hi) this

theorem list_eq_of_getD (n : Nat) (x y : List ℚ) (hx : x.length = n) (hy : y.length = n)
    (h : ∀ i, i < n → x.getD i 0 = y.getD i 0) : x = y := by
  apply List.ext_getElem (by rw [hx, hy])
  intro i h1 h2
  have := h i (by omega)
  rw [List.getD_eq_getElem _ _ h1, List.getD_eq_getElem _ _ h2] at this
  exact this

theorem forall_getD_iff_mem {α : Type} (l : List α) (d : α) (P : α → Prop) :
    (∀ r, r < l.length → P (l.getD r d)) ↔ ∀ row, row ∈ l → P row := by
  constructor
  · intro h row hrow
    obtain ⟨k, hk, e⟩ := List.mem_iff_getElem.mp hrow
    have := h k hk
    rw [List.getD_eq_getElem _ _ hk, e] at this
    exact this
  · intro h r hr
    rw [List.getD_eq_getElem _ _ hr]
    exact h _ (List.getElem_mem hr)

theorem wellShaped_perm {n : Nat} {m m1 : Mat} (hp : m.Perm m1) (hs : WellShaped n m) :
    WellShaped n m1 := by
  have hlen : m1.length = n := by rw [← hp.length_eq]; exact hs.1
  refine ⟨hlen, ?_⟩
  have h1 : ∀ row, row ∈ m → row.length = n + 1 := by
    apply (forall_getD_iff_mem m [] (fun row => row.length = n + 1)).mp
    intro r hr
    exact hs.2 r (by rw [← hs.1]; exact hr)
  intro r hr
  apply (forall_getD_iff_mem m1 [] (fun row => row.length = n + 1)).mpr _ r (by rw [hlen]; exact hr)
  intro row hrow
  exact h1 row (hp.mem_iff.mpr hrow)

theorem solves_perm {n : Nat} {m m1 : Mat} (hp : m.Perm m1) (hs : WellShaped n m) (x : List ℚ) :
    Solves n m x ↔ Solves n m1 x := by
  have hlen : m1.length = n := by rw [← hp.length_eq]; exact hs.1
  have key : ∀ b : Mat, b.length = n → (Solves n b x ↔ ∀ row, row ∈ b →
      (∑ c ∈ Finset.range n, row.getD c 0 * x.getD c 0) = row.getD n 0) := by
    intro b hb
    rw [← forall_getD_iff_mem b [] (fun row =>
      (∑ c ∈ Finset.range n, row.getD c 0 * x.getD c 0) = row.getD n 0), hb]
    rfl
  rw [key m hs.1, key m1 hlen]
  constructor
  · intro h row hrow; exact h row (hp.mem_iff.mpr hrow)
  · intro h row hrow; exact h row (hp.mem_iff.mp hrow)

theorem backSubstitute_error (n : Nat) (a : Mat) :
    ∀ c (sol : List ℚ) (e : Failure), backSubstitute n a c sol = .error e →
      e = .inconsistentBackSubst := by
  intro c
  induction c with
  | zero => intro sol e h; cases h
  | succ c ih =>
    intro sol e h
    unfold backSubstitute at h
    by_cases h1 : Gauss.abs (entry a c c) < tol
    · rw [if_pos h1] at h
      by_cases h2 : Gauss.abs (entry a c n) > tol
      · rw [if_pos h2] at h
        exact (Except.error.inj h).symm
      · rw [if_neg h2] at h
        exact ih _ e h
    · rw [if_neg h1] at h
      have hne : entry a c c ≠ 0 := by
        intro hz
        rw [hz, abs_eq, abs_zero] at h1
        exact h1 tol_pos
      rw [fdiv_ok _ _ hne] at h
      exact ih _ e h

theorem solution_norm_bound (n : Nat) (a : Mat) (r : Nat) (hr : r < n)
    (hc : ∀ c, c < n → |entry a r c| ≤ tol) (hb : tol < |entry a r n|) (x : List ℚ)
    (hx : Solves n a x) : 1 < ∑ c ∈ Finset.range n, |x.getD c 0| := by
  have h1 : |entry a r n| ≤ ∑ c ∈ Finset.range n, tol * |x.getD c 0| := by
    rw [← hx r hr]
    unfold lhs
    refine le_trans (Finset.abs_sum_le_sum_abs _ _) (Finset.sum_le_sum fun c hcm => ?_)
    rw [abs_mul]
    exact mul_le_mul_of_nonneg_right (hc c (Finset.mem_range.mp hcm)) (abs_nonneg _)
  rw [← Finset.mul_sum] at h1
  have h2 : tol * 1 < tol * ∑ c ∈ Finset.range n, |x.getD c 0| := by
    rw [mul_one]; exact lt_of_lt_of_le hb h1
  exact lt_of_mul_lt_mul_left h2 (le_of_lt tol_pos)

/-! ## The claims -/

/-- C1: on the 3x4 matrix `[[2,1,-1,8],[-3,-1,2,-11],[-2,1,2,-3]]`, in exact
arithmetic, `gaussianElimination` returns no error and the vector `(2, 3, -1)`,
and `checkSolution` accepts that vector for the original matrix. -/
theorem c1_three_by_three_example :
    gaussianElimination [[2, 1, -1, 8], [-3, -1, 2, -11], [-2, 1, 2, -3]] = .ok [2, 3, -1] ∧
      checkSolution [[2, 1, -1, 8], [-3, -1, 2, -11], [-2, 1, 2, -3]] [2, 3, -1] = true := by
  decide!

/-- C2, as stated, fails: the 1x2 system `1e-10 * x = 1` has an invertible
coefficient block and the unique solution `x = 1e10`, yet `gaussianElimination`
answers with the inconsistency error of the sweep after the forward pass. -/
theorem c2_invertible_rejected :
    WellShaped 1 [[1 / 10000000000, 1]] ∧ entry [[1 / 10000000000, 1]] 0 0 ≠ 0 ∧
      (∀ q : ℚ, Solves 1 [[1 / 10000000000, 1]] [q] ↔ q = 10000000000) ∧
      gaussianElimination [[1 / 10000000000, 1]] = .error .inconsistentAfterForward := by
  refine ⟨by decide, by decide!, fun q => ?_, by decide!⟩
  simp [Solves, lhs, entry]
  constructor
  · intro h; field_simp at h; linarith
  · intro h; rw [h]; norm_num

/-- C2, amended: for `n ≥ 1` and an `n x (n+1)` matrix whose forward pass ends
with every diagonal entry (every pivot) above `1e-9` in absolute value,
`gaussianElimination` returns a vector that solves the original system exactly,
and `checkSolution` accepts it. -/
theorem c2_pivots_above_tolerance (n : Nat) (matrix a : Mat) (hn : 1 ≤ n)
    (hs : WellShaped n matrix) (hf : forwardSteps n n matrix = .ok a)
    (hd : ∀ i, i < n → tol < |entry a i i|) :
    ∃ x, gaussianElimination matrix = .ok x ∧ Solves n matrix x ∧
      checkSolution matrix x = true := by
  obtain ⟨x, hx, _, _, hsol⟩ := gaussianElimination_exact hs hn hf
    (fun i hi => by rw [abs_eq]; exact hd i hi)
  refine ⟨x, hx, hsol, checkSolution_of_solves matrix x ?_⟩
  rw [hs.1]; exact hsol

/-- Witness for C2 amended: the 3x4 example matrix, whose pivots are `-3`, `5/3`
and `1/5`. -/
theorem c2_pivots_above_tolerance_witness :
    ∃ x, gaussianElimination [[2, 1, -1, 8], [-3, -1, 2, -11], [-2, 1, 2, -3]] = .ok x ∧
      Solves 3 [[2, 1, -1, 8], [-3, -1, 2, -11], [-2, 1, 2, -3]] x ∧
      checkSolution [[2, 1, -1, 8], [-3, -1, 2, -11], [-2, 1, 2, -3]] x = true :=
  c2_pivots_above_tolerance 3 [[2, 1, -1, 8], [-3, -1, 2, -11], [-2, 1, 2, -3]]
    [[-3, -1, 2, -11], [0, 5 / 3, 2 / 3, 13 / 3], [0, 0, 1 / 5, -1 / 5]]
    (by decide) (by decide) (by decide!) (by decide!)

/-- C3, as stated, fails in `float64`: in
`[[1,1,0,1e308],[-1,1,0,1e308],[0,0,0,5]]` every entry is finite and row `2` has
exactly zero coefficients and the right-hand side `5`, yet the run returns the
vector `(-Inf, +Inf, 0)` and no error: `1e308 + 1e308` overflows in step `0`,
`0 * Inf` turns the right-hand side of the zero row into a NaN in step `1`, and
every test `> 1e-9` on a NaN is false. -/
theorem c3_float_overflow_returns_vector :
    WellShaped 3 [[1, 1, 0, 10 ^ 308], [-1, 1, 0, 10 ^ 308], [0, 0, 0, 5]] ∧
      allFinite (matF [[1, 1, 0, 10 ^ 308], [-1, 1, 0, 10 ^ 308], [0, 0, 0, 5]]) = true ∧
      (matF [[1, 1, 0, 10 ^ 308], [-1, 1, 0, 10 ^ 308], [0, 0, 0, 5]]).getD 2 []
        = [.fin false 0, .fin false 0, .fin false 0, .fin false 5] ∧
      F64.lt tolF (absF (.fin false 5)) = true ∧
      gaussianEliminationF (matF [[1, 1, 0, 10 ^ 308], [-1, 1, 0, 10 ^ 308], [0, 0, 0, 5]])
        = .ok [.infinity true, .infinity false, .fin false 0] := by
  decide!

/-- C3, amended: modelled over exact arithmetic (rational entries, `1e-9` the
number `10^-9`, no rounding or overflow), for `n ≥ 1`, an `n x (n+1)` matrix
with a row whose `n` coefficients are exactly zero and whose right-hand side
exceeds `1e-9` in absolute value makes `gaussianElimination` return an
inconsistency error (hence no solution vector), whatever the other rows are and
wherever the row stands. -/
theorem c3_zero_row_inconsistent (n : Nat) (matrix : Mat) (hn : 1 ≤ n)
    (hs : WellShaped n matrix) (r : Nat) (hr : r < n)
    (hz : ∀ c, c < n → entry matrix r c = 0) (hb : tol < |entry matrix r n|) :
    ∃ e, gaussianElimination matrix = .error e ∧ e.isInconsistent = true := by
  have hzr : HasZeroRow n matrix := ⟨r, hr, hz, by rw [abs_eq]; exact hb⟩
  unfold gaussianElimination
  simp only [hs.1]
  rw [if_neg (by omega)]
  cases hf : forwardSteps n n matrix with
  | error e =>
    refine ⟨e, rfl, ?_⟩
    rcases (forwardSteps_invariants hs n (le_refl _)).2 e hf with h | h <;> rw [h] <;> rfl
  | ok a =>
    obtain ⟨r1, hr1, hz1, hb1⟩ := hasZeroRow_forwardSteps hs hzr n (le_refl _) a hf
    rcases sweep_cases n a with ⟨_, h2⟩ | ⟨h1, _⟩
    · exfalso
      apply h2 r1 hr1
      refine ⟨(allZerosRow_iff a r1 0 n).mpr fun k _ hk => ?_, hb1⟩
      rw [hz1 k hk, abs_eq, abs_zero]
      exact le_of_lt tol_pos
    · refine ⟨.inconsistentAfterForward, ?_, rfl⟩
      simp only [h1]

/-- Witness for C3 amended: the system `x + 2y = 3`, `0x + 0y = 5`. -/
theorem c3_zero_row_inconsistent_witness :
    ∃ e, gaussianElimination [[1, 2, 3], [0, 0, 5]] = .error e ∧ e.isInconsistent = true :=
  c3_zero_row_inconsistent 2 [[1, 2, 3], [0, 0, 5]] (by decide) (by decide) 1 (by decide)
    (by decide!) (by decide!)

/-- C4, as stated, fails: on the one-row input `[[0,0,5]]` the code takes `n = 1`,
reads column 1 (the value `0`) as the right-hand side and returns the solution
vector `(0)` without an error. -/
theorem c4_three_entry_row_accepted : gaussianElimination [[0, 0, 5]] = .ok [0] := by
  decide!

/-- C4, amended: `[[0,0,5]]` is not an `n x (n+1)` matrix and yields the vector
`(0)`; the single equation `0 * x = 5` in the shape the code expects, `[[0,5]]`,
yields the inconsistency error. -/
theorem c4_single_equation_inconsistent :
    ¬ WellShaped 1 [[0, 0, 5]] ∧ gaussianElimination [[0, 0, 5]] = .ok [0] ∧
      WellShaped 1 [[0, 5]] ∧ gaussianElimination [[0, 5]] = .error .inconsistentPivot := by
  decide!

/-- C5, as stated, fails.  In exact arithmetic: on `1e-10 * x = 1` the sweep
after the forward pass reports inconsistency although `x = 1e10` satisfies the
equation exactly (the `float64` run gives the same error).  In `float64` also
with integer entries: in `[[880702676,1134817754,609939162],
[17973524,23159546,12447738]]` row `0` is `49` times row `1`, rounding leaves
row `1` as `(0, 0, 2^-29)` after step `0`, and the run returns the pivot-step
inconsistency error although `(0, 12447738/23159546)`, of absolute sum below
`1`, solves the system exactly. -/
theorem c5_error_with_solution :
    (WellShaped 1 [[1 / 10000000000, 1]] ∧
      gaussianElimination [[1 / 10000000000, 1]] = .error .inconsistentAfterForward ∧
      gaussianEliminationF (matF [[1 / 10000000000, 1]]) = .error .inconsistentAfterForward ∧
      Solves 1 [[1 / 10000000000, 1]] [10000000000]) ∧
    (forwardStepsF 2 1
          (matF [[880702676, 1134817754, 609939162], [17973524, 23159546, 12447738]])
        = .ok [[.fin false 880702676, .fin false 1134817754, .fin false 609939162],
            [.fin false 0, .fin false 0, .fin false (1 / 536870912)]] ∧
      gaussianEliminationF
          (matF [[880702676, 1134817754, 609939162], [17973524, 23159546, 12447738]])
        = .error .inconsistentPivot ∧
      Solves 2 [[880702676, 1134817754, 609939162], [17973524, 23159546, 12447738]]
        [0, 12447738 / 23159546] ∧
      (∑ c ∈ Finset.range 2, |([0, 12447738 / 23159546] : List ℚ).getD c 0|) < 1) := by
  decide!

/-- C5, amended: modelled over exact arithmetic, for `n ≥ 1` and an
`n x (n+1)` matrix, an inconsistency error raised by the pivot-step check, the
last-row check or the sweep after the forward pass means inconsistency up to
the tolerance: the working matrix at that point (after the row exchange of the
failing pivot step, or after the whole forward pass for the sweep) has the
exact solutions of the input and a row whose `n` coefficients are all at most
`1e-9` in absolute value while its right-hand side exceeds `1e-9`; hence every
exact solution `x` has `Σ |x_j| > 1`. -/
theorem c5_error_means_near_zero_row (n : Nat) (matrix : Mat) (hn : 1 ≤ n)
    (hs : WellShaped n matrix) (e : Failure) (h : gaussianElimination matrix = .error e)
    (he : e = .inconsistentPivot ∨ e = .inconsistentLastRow ∨ e = .inconsistentAfterForward) :
    ((∃ k w, k < n ∧ forwardSteps n k matrix = .ok w ∧ pivotStep n k w = .error e ∧
          (∀ x, Solves n (swapped n k w) x ↔ Solves n matrix x) ∧
          NearZeroRow n (swapped n k w)) ∨
        (∃ w, forwardSteps n n matrix = .ok w ∧ sweep n w = .error e ∧
          (∀ x, Solves n w x ↔ Solves n matrix x) ∧ NearZeroRow n w)) ∧
      ∀ x, Solves n matrix x → 1 < ∑ c ∈ Finset.range n, |x.getD c 0| := by
  have main : (∃ k w, k < n ∧ forwardSteps n k matrix = .ok w ∧ pivotStep n k w = .error e ∧
        (∀ x, Solves n (swapped n k w) x ↔ Solves n matrix x) ∧
        NearZeroRow n (swapped n k w)) ∨
      (∃ w, forwardSteps n n matrix = .ok w ∧ sweep n w = .error e ∧
        (∀ x, Solves n w x ↔ Solves n matrix x) ∧ NearZeroRow n w) := by
    unfold gaussianElimination at h
    simp only [hs.1] at h
    rw [if_neg (by omega)] at h
    cases hf : forwardSteps n n matrix with
    | error e0 =>
      rw [hf] at h
      have he0 : e0 = e := Except.error.inj h
      subst he0
      obtain ⟨k, ak, hk, hak, hstep⟩ := forLoopE_error_split _ _ _ _ _ hf
      rw [Nat.zero_add] at hstep
      obtain ⟨hsk, hlk, hsolk⟩ := (forwardSteps_invariants hs k (by omega)).1 ak hak
      obtain ⟨hz, hrhs, hcase⟩ := pivotStep_error_cases hsk hk hstep
      have hls := lowerZero_swapped hsk k hk hlk
      left
      refine ⟨k, ak, hk, hak, hstep, fun x => (solves_swapped hsk k hk x).trans (hsolk x),
        k, hk, fun c hc => ?_, by rw [← abs_eq]; exact hrhs⟩
      by_cases hck : c < k
      · rw [hls c k hck hck hk, abs_zero]; exact le_of_lt tol_pos
      · rcases hcase with ⟨_, hall⟩ | ⟨_, hlast⟩
        · rw [← abs_eq]
          exact (allZerosRow_iff _ k k n).mp hall c (by omega) hc
        · have : c = k := by omega
          rw [this, hz, abs_zero]; exact le_of_lt tol_pos
    | ok a =>
      rw [hf] at h
      obtain ⟨_, _, hsol⟩ := (forwardSteps_invariants hs n (le_refl _)).1 a hf
      rcases sweep_cases n a with ⟨h1, _⟩ | ⟨h1, i, hi, hall, hrhs⟩
      · exfalso
        simp only [h1] at h
        have := backSubstitute_error n a n _ e h
        rw [this] at he
        rcases he with he | he | he <;> cases he
      · right
        have hsw : sweep n a = .error e := by
          simp only [h1] at h
          rw [h1, Except.error.inj h]
        refine ⟨a, rfl, hsw, hsol, i, hi, fun c hc => ?_, by rw [← abs_eq]; exact hrhs⟩
        rw [← abs_eq]
        exact (allZerosRow_iff a i 0 n).mp hall c (Nat.zero_le c) hc
  refine ⟨main, fun x hx => ?_⟩
  rcases main with ⟨k, w, _, _, _, hsol, r, hr, hc, hb⟩ | ⟨w, _, _, hsol, r, hr, hc, hb⟩
  · exact solution_norm_bound n _ r hr hc hb x ((hsol x).mpr hx)
  · exact solution_norm_bound n _ r hr hc hb x ((hsol x).mpr hx)

/-- Witness for C5 amended: the system `1e-10 * x = 1`, rejected by the sweep. -/
theorem c5_error_means_near_zero_row_witness :
    ((∃ k w, k < 1 ∧ forwardSteps 1 k [[1 / 10000000000, 1]] = .ok w ∧
          pivotStep 1 k w = .error .inconsistentAfterForward ∧
          (∀ x, Solves 1 (swapped 1 k w) x ↔ Solves 1 [[1 / 10000000000, 1]] x) ∧
          NearZeroRow 1 (swapped 1 k w)) ∨
        (∃ w, forwardSteps 1 1 [[1 / 10000000000, 1]] = .ok w ∧
          sweep 1 w = .error .inconsistentAfterForward ∧
          (∀ x, Solves 1 w x ↔ Solves 1 [[1 / 10000000000, 1]] x) ∧ NearZeroRow 1 w)) ∧
      ∀ x, Solves 1 [[1 / 10000000000, 1]] x → 1 < ∑ c ∈ Finset.range 1, |x.getD c 0| :=
  c5_error_means_near_zero_row 1 [[1 / 10000000000, 1]] (by decide) (by decide)
    .inconsistentAfterForward (by decide!) (Or.inr (Or.inr rfl))

/-- The inconsistency error of back-substitution on a consistent system: on
`[[0,1,1],[0,0,0]]` the run ends with that error although `(0, 1)` satisfies
both equations exactly. -/
theorem backSubst_error_with_solution :
    gaussianElimination [[0, 1, 1], [0, 0, 0]] = .error .inconsistentBackSubst ∧
      Solves 2 [[0, 1, 1], [0, 0, 0]] [0, 1] := by
  refine ⟨by decide!, ?_⟩
  intro r hr
  have : r = 0 ∨ r = 1 := by omega
  rcases this with h | h <;> subst h <;> simp [lhs, entry, Finset.sum_range_succ]

/-- C6: on the redundant but consistent pair `[[1,1,2],[2,2,4]]`
`gaussianElimination` returns a solution vector, namely `(2, 0)`, and no
inconsistency error. -/
theorem c6_redundant_pair_solved : gaussianElimination [[1, 1, 2], [2, 2, 4]] = .ok [2, 0] := by
  decide!

/-- C7, as stated, fails: `[[0,1,1],[0,0,0]]` and the same two rows in the other
order are both 2x3, yet the first run ends with the inconsistency error of
back-substitution and the second returns the vector `(0, 1)`.  Two runs that
both return a vector can differ as well: the rows `y = 0`, `z = 0`, `y + z = 1`
give `(0, 1, 0)`, and with the first two rows exchanged `(0, 0, 1)`. -/
theorem c7_row_order_changes_outcome :
    (List.Perm [[0, 1, 1], [0, 0, 0]] [[0, 0, 0], [(0 : ℚ), 1, 1]] ∧
      WellShaped 2 [[0, 1, 1], [0, 0, 0]] ∧
      gaussianElimination [[0, 1, 1], [0, 0, 0]] = .error .inconsistentBackSubst ∧
      gaussianElimination [[0, 0, 0], [0, 1, 1]] = .ok [0, 1]) ∧
    (List.Perm [[0, 1, 0, 0], [0, 0, 1, 0], [0, 1, 1, 1]]
        [[0, 0, 1, 0], [(0 : ℚ), 1, 0, 0], [0, 1, 1, 1]] ∧
      WellShaped 3 [[0, 1, 0, 0], [0, 0, 1, 0], [0, 1, 1, 1]] ∧
      gaussianElimination [[0, 1, 0, 0], [0, 0, 1, 0], [0, 1, 1, 1]] = .ok [0, 1, 0] ∧
      gaussianElimination [[0, 0, 1, 0], [0, 1, 0, 0], [0, 1, 1, 1]] = .ok [0, 0, 1]) :=
  ⟨⟨List.Perm.swap _ _ _, by decide, by decide!, by decide!⟩,
    ⟨List.Perm.swap _ _ _, by decide, by decide!, by decide!⟩⟩

/-- C7, amended: for `n ≥ 1`, an `n x (n+1)` matrix and any permutation of its
rows, if in both runs the forward pass ends with every diagonal entry above
`1e-9` in absolute value, then both runs of `gaussianElimination` return the
same solution vector, component for component. -/
theorem c7_permutation_same_solution (n : Nat) (matrix permuted a a1 : Mat) (hn : 1 ≤ n)
    (hs : WellShaped n matrix) (hp : List.Perm matrix permuted)
    (hf : forwardSteps n n matrix = .ok a) (hd : ∀ i, i < n → tol < |entry a i i|)
    (hf1 : forwardSteps n n permuted = .ok a1) (hd1 : ∀ i, i < n → tol < |entry a1 i i|) :
    ∃ x, gaussianElimination matrix = .ok x ∧ gaussianElimination permuted = .ok x := by
  have hs1 : WellShaped n permuted := wellShaped_perm hp hs
  obtain ⟨x, hx, hlen, hxa, hxm⟩ := gaussianElimination_exact hs hn hf
    (fun i hi => by rw [abs_eq]; exact hd i hi)
  obtain ⟨y, hy, hlen1, _, hym⟩ := gaussianElimination_exact hs1 hn hf1
    (fun i hi => by rw [abs_eq]; exact hd1 i hi)
  obtain ⟨_, hl, hsol⟩ := (forwardSteps_invariants hs n (le_refl _)).1 a hf
  have hya : Solves n a y := (hsol y).mpr ((solves_perm hp hs y).mpr hym)
  have hne : ∀ i, i < n → entry a i i ≠ 0 := fun i hi =>
    abs_pos_ne_zero (by rw [abs_eq]; exact hd i hi)
  have hxy : x = y := list_eq_of_getD n x y hlen hlen1
    (fun i hi => triangular_unique n a x y hl hne hxa hya n i hi (by omega))
  refine ⟨x, hx, ?_⟩
  rw [hxy]; exact hy

/-- Witness for C7 amended: the 3x4 example matrix and the same rows with the
first two exchanged. -/
theorem c7_permutation_same_solution_witness :
    ∃ x, gaussianElimination [[2, 1, -1, 8], [-3, -1, 2, -11], [-2, 1, 2, -3]] = .ok x ∧
      gaussianElimination [[-3, -1, 2, -11], [2, 1, -1, 8], [-2, 1, 2, -3]] = .ok x :=
  c7_permutation_same_solution 3 [[2, 1, -1, 8], [-3, -1, 2, -11], [-2, 1, 2, -3]]
    [[-3, -1, 2, -11], [2, 1, -1, 8], [-2, 1, 2, -3]]
    [[-3, -1, 2, -11], [0, 5 / 3, 2 / 3, 13 / 3], [0, 0, 1 / 5, -1 / 5]]
    [[-3, -1, 2, -11], [0, 5 / 3, 2 / 3, 13 / 3], [0, 0, 1 / 5, -1 / 5]]
    (by decide) (by decide) (List.Perm.swap _ _ _) (by decide!) (by decide!) (by decide!)
    (by decide!)

/-- C8 fails on the code: on the consistent pair `[[1,1,2],[2,2,4]]` the
sequential solver returns `(2, 0)` while the concurrent one divides by the zero
diagonal entry it skipped (a NaN in floats); on `[[1e-10, 1e-10]]` the
sequential solver returns `(0)` and the concurrent one `(1)`. -/
theorem c8_sequential_concurrent_differ :
    gaussianElimination [[1, 1, 2], [2, 2, 4]] = .ok [2, 0] ∧
      solveSLAUParallelGauss [[1, 1, 2], [2, 2, 4]] = .error .zeroDivisor ∧
      gaussianElimination [[1 / 10000000000, 1 / 10000000000]] = .ok [0] ∧
      solveSLAUParallelGauss [[1 / 10000000000, 1 / 10000000000]] = .ok [1] := by
  decide!

/-- C9: when the forward pass of `gaussianElimination` on an `n x (n+1)` matrix
completes without an error, every entry below the diagonal of the working
matrix is at most `1e-9` in absolute value (it is exactly zero). -/
theorem c9_below_diagonal_within_tolerance (n : Nat) (matrix a : Mat)
    (hs : WellShaped n matrix) (hf : forwardSteps n n matrix = .ok a) :
    ∀ i j, i < n → i < j → j < n → |entry a j i| ≤ tol ∧ entry a j i = 0 := by
  intro i j hi hij hj
  have hl := ((forwardSteps_invariants hs n (le_refl _)).1 a hf).2.1
  have hz : entry a j i = 0 := hl i j hi hij hj
  refine ⟨?_, hz⟩
  rw [hz, abs_zero]
  exact le_of_lt tol_pos

/-- Witness for C9: the forward pass on the 3x4 example matrix. -/
theorem c9_below_diagonal_within_tolerance_witness :
    forwardSteps 3 3 [[2, 1, -1, 8], [-3, -1, 2, -11], [-2, 1, 2, -3]] =
        .ok [[-3, -1, 2, -11], [0, 5 / 3, 2 / 3, 13 / 3], [0, 0, 1 / 5, -1 / 5]] ∧
      ∀ i j, i < 3 → i < j → j < 3 →
        |entry [[-3, -1, 2, -11], [0, 5 / 3, 2 / 3, 13 / 3], [0, 0, 1 / 5, -1 / 5]] j i| ≤ tol ∧
          entry [[-3, -1, 2, -11], [0, 5 / 3, 2 / 3, 13 / 3], [0, 0, 1 / 5, -1 / 5]] j i = 0 :=
  ⟨by decide!, c9_below_diagonal_within_tolerance 3
    [[2, 1, -1, 8], [-3, -1, 2, -11], [-2, 1, 2, -3]]
    [[-3, -1, 2, -11], [0, 5 / 3, 2 / 3, 13 / 3], [0, 0, 1 / 5, -1 / 5]] (by decide) (by decide!)⟩

/-! ## Rows that a pivot step leaves alone -/

theorem pivotStep_of_ne_zero {n i : Nat} {a : Mat} (hp : entry (swapped n i a) i i ≠ 0) :
    pivotStep n i a = eliminate n i (swapped n i a) := by
  unfold pivotStep
  simp only []
  unfold swapped at hp
  rw [if_neg hp]
  rfl

theorem entry_swapped_above {n : Nat} {a : Mat} (hs : WellShaped n a) (i : Nat) (hi : i < n)
    (r c : Nat) (hr : r < i) : entry (swapped n i a) r c = entry a r c := by
  obtain ⟨h1, _, _⟩ := findPivot_spec n i a hi
  rw [entry_swapped hs i hi, if_neg (by omega), if_neg (by omega)]

/-- A pivot step changes no row above its own, and its own row is the row the
exchange has put there. -/
theorem pivotStep_rows_above {n i : Nat} {a b : Mat} (hs : WellShaped n a) (hi : i < n)
    (h : pivotStep n i a = .ok b) :
    (∀ r c, r < i → entry b r c = entry a r c) ∧
      ∀ c, entry b i c = entry (swapped n i a) i c := by
  have hss := wellShaped_swapped hs i hi
  rcases pivotStep_ok_cases h with ⟨_, hb⟩ | ⟨hp, hb⟩
  · subst hb
    exact ⟨fun r c hr => entry_swapped_above hs i hi r c hr, fun c => rfl⟩
  · obtain ⟨b1, hb1, _, he⟩ := eliminate_spec n i _ hss hi hp
    rw [hb1] at hb
    have : b1 = b := Except.ok.inj hb
    subst this
    refine ⟨fun r c hr => ?_, fun c => ?_⟩
    · rw [he, if_neg (by omega)]
      exact entry_swapped_above hs i hi r c hr
    · rw [he, if_neg (by omega)]

/-- C17, as stated, fails in `float64`: on the 3x4 example matrix the forward
pass, with every product and difference rounded, ends in a working matrix of
finite entries whose last row is `(0, 0, 0.19999999999999987,
-0.19999999999999984)`; the vector `(2, 3, -1)` satisfies every equation of the
input exactly and not every equation of that matrix. -/
theorem c17_float_forward_changes_solutions :
    forwardStepsF 3 3 (matF [[2, 1, -1, 8], [-3, -1, 2, -11], [-2, 1, 2, -3]])
        = .ok [[.fin true 3, .fin true 1, .fin false 2, .fin true 11],
            [.fin false 0, .fin false (3752999689475413 / 2251799813685248),
              .fin false (3002399751580331 / 4503599627370496),
              .fin false (4878899596318037 / 1125899906842624)],
            [.fin false 0, .fin false 0, .fin false (7205759403792789 / 36028797018963968),
              .fin true (1801439850948197 / 9007199254740992)]] ∧
      Solves 3 [[2, 1, -1, 8], [-3, -1, 2, -11], [-2, 1, 2, -3]] [2, 3, -1] ∧
      ¬ Solves 3 (ratMat [[.fin true 3, .fin true 1, .fin false 2, .fin true 11],
            [.fin false 0, .fin false (3752999689475413 / 2251799813685248),
              .fin false (3002399751580331 / 4503599627370496),
              .fin false (4878899596318037 / 1125899906842624)],
            [.fin false 0, .fin false 0, .fin false (7205759403792789 / 36028797018963968),
              .fin true (1801439850948197 / 9007199254740992)]]) [2, 3, -1] := by
  decide!

/-- C17, amended: modelled over exact arithmetic, the forward pass of
`gaussianElimination` preserves the solution set: for an `n x (n+1)` matrix,
any prefix of `k ≤ n` pivot steps that has run, and any vector `x`, `x`
satisfies every equation of the input exactly if and only if it satisfies
every equation of the working matrix after those steps. -/
theorem c17_forward_preserves_solutions (n k : Nat) (matrix a : Mat)
    (hs : WellShaped n matrix) (hk : k ≤ n) (hf : forwardSteps n k matrix = .ok a)
    (x : List ℚ) : Solves n matrix x ↔ Solves n a x :=
  (((forwardSteps_invariants hs k hk).1 a hf).2.2 x).symm

/-- Witness for C17 amended: the first two pivot steps on the 3x4 example matrix and the
vector `(2, 3, -1)`. -/
theorem c17_forward_preserves_solutions_witness :
    Solves 3 [[2, 1, -1, 8], [-3, -1, 2, -11], [-2, 1, 2, -3]] [2, 3, -1] ↔
      Solves 3 [[-3, -1, 2, -11], [0, 5 / 3, 2 / 3, 13 / 3], [0, 0, 1 / 5, -1 / 5]] [2, 3, -1] :=
  c17_forward_preserves_solutions 3 2 [[2, 1, -1, 8], [-3, -1, 2, -11], [-2, 1, 2, -3]]
    [[-3, -1, 2, -11], [0, 5 / 3, 2 / 3, 13 / 3], [0, 0, 1 / 5, -1 / 5]]
    (by decide) (by decide) (by decide!) [2, 3, -1]

theorem forwardSteps_pivots {n : Nat} {matrix : Mat} (hs : WellShaped n matrix)
    (hp : ∀ i, i < n → ∃ p, pivotAfterSwap n matrix i = some p ∧ tol < |p|) (k : Nat)
    (hk : k ≤ n) :
    ∃ a, forwardSteps n k matrix = .ok a ∧ ∀ i, i < k → tol < |entry a i i| := by
  induction k with
  | zero => exact ⟨matrix, rfl, fun i hi => absurd hi (Nat.not_lt_zero i)⟩
  | succ k ih =>
    obtain ⟨a, ha, hd⟩ := ih (by omega)
    obtain ⟨p, hp1, hp2⟩ := hp k (by omega)
    unfold pivotAfterSwap at hp1
    rw [ha] at hp1
    have hpe : entry (swapped n k a) k k = p := Option.some.inj hp1
    have hsa := ((forwardSteps_invariants hs k (by omega)).1 a ha).1
    have hne : entry (swapped n k a) k k ≠ 0 := by
      rw [hpe]
      exact abs_pos_ne_zero (by rw [abs_eq]; exact hp2)
    obtain ⟨b, hb, _⟩ := eliminate_spec n k _ (wellShaped_swapped hsa k (by omega)) (by omega) hne
    have hstep : pivotStep n k a = .ok b := by rw [pivotStep_of_ne_zero hne]; exact hb
    obtain ⟨habove, hown⟩ := pivotStep_rows_above hsa (by omega) hstep
    refine ⟨b, ?_, fun i hi => ?_⟩
    · unfold forwardSteps at ha ⊢
      rw [forLoopE_succ_ok _ _ _ _ _ ha, Nat.zero_add]
      exact hstep
    · by_cases hik : i = k
      · subst hik
        rw [hown, hpe]; exact hp2
      · rw [habove i i (by omega)]
        exact hd i (by omega)

/-- C18, as stated, fails.  In `float64`: on `[[11, 30000000]]` the pivot `11` is
above `1e-9`, the run returns the rounded quotient `2727272.727272727`, whose
product with `11` is not `30000000`, and `checkSolution` in `float64` rejects
it.  And for `n = 0`: the matrix without rows has no pivot step, so the
condition on the pivots holds for it, and `gaussianElimination` returns its
error for an empty matrix. -/
theorem c18_float_quotient_inexact :
    (WellShaped 1 [[11, 30000000]] ∧
      matF [[11, 30000000]] = [[.fin false 11, .fin false 30000000]] ∧
      F64.lt tolF
          (absF (entryF (swapRowsF (matF [[11, 30000000]]) 0
            (findPivotF 1 0 (matF [[11, 30000000]]))) 0 0)) = true ∧
      gaussianEliminationF (matF [[11, 30000000]])
        = .ok [.fin false (5856773585454545 / 2147483648)] ∧
      (11 : ℚ) * (5856773585454545 / 2147483648) ≠ 30000000 ∧
      checkSolutionF (matF [[11, 30000000]]) [.fin false (5856773585454545 / 2147483648)]
        = false) ∧
    (WellShaped 0 [] ∧ (∀ i, i < 0 → ∃ p, pivotAfterSwap 0 [] i = some p ∧ tol < |p|) ∧
      gaussianElimination [] = .error .emptyMatrix) :=
  ⟨by decide!, by decide, fun i hi => absurd hi (Nat.not_lt_zero i), by decide!⟩

/-- C18, amended: modelled over exact arithmetic, for `n ≥ 1` and an
`n x (n+1)` matrix for which, in every pivot step `i` of `gaussianElimination`,
the diagonal entry after the row exchange is above `1e-9` in absolute value,
`gaussianElimination` returns no error, the returned vector satisfies the
original system exactly, and `checkSolution` accepts it. -/
theorem c18_exact_under_good_pivots (n : Nat) (matrix : Mat) (hn : 1 ≤ n)
    (hs : WellShaped n matrix)
    (hp : ∀ i, i < n → ∃ p, pivotAfterSwap n matrix i = some p ∧ tol < |p|) :
    ∃ x, gaussianElimination matrix = .ok x ∧ x.length = n ∧
      (∀ i, i < n → (∑ j ∈ Finset.range n, entry matrix i j * x.getD j 0) = entry matrix i n) ∧
      checkSolution matrix x = true := by
  obtain ⟨a, ha, hd⟩ := forwardSteps_pivots hs hp n (le_refl _)
  obtain ⟨x, hx, hlen, _, hsol⟩ := gaussianElimination_exact hs hn ha
    (fun i hi => by rw [abs_eq]; exact hd i hi)
  refine ⟨x, hx, hlen, hsol, checkSolution_of_solves matrix x ?_⟩
  rw [hs.1]; exact hsol

/-- Witness for C18 amended: the 3x4 example matrix, whose pivots after the exchange are
`-3`, `5/3` and `1/5`. -/
theorem c18_exact_under_good_pivots_witness :
    ∃ x, gaussianElimination [[2, 1, -1, 8], [-3, -1, 2, -11], [-2, 1, 2, -3]] = .ok x ∧
      x.length = 3 ∧
      (∀ i, i < 3 → (∑ j ∈ Finset.range 3,
          entry [[2, 1, -1, 8], [-3, -1, 2, -11], [-2, 1, 2, -3]] i j * x.getD j 0)
        = entry [[2, 1, -1, 8], [-3, -1, 2, -11], [-2, 1, 2, -3]] i 3) ∧
      checkSolution [[2, 1, -1, 8], [-3, -1, 2, -11], [-2, 1, 2, -3]] x = true :=
  c18_exact_under_good_pivots 3 [[2, 1, -1, 8], [-3, -1, 2, -11], [-2, 1, 2, -3]]
    (by decide) (by decide) (by decide!)


/-! ## Pivot selection -/

theorem mat_ext {n : Nat} {a b : Mat} (ha : WellShaped n a) (hb : WellShaped n b)
    (h : ∀ r c, r < n → c < n + 1 → entry a r c = entry b r c) : a = b := by
  apply List.ext_getElem (by rw [ha.1, hb.1])
  intro r h1 h2
  have hr : r < n := by rw [← ha.1]; exact h1
  have e1 := ha.2 r hr
  have e2 := hb.2 r hr
  rw [List.getD_eq_getElem _ _ h1] at e1
  rw [List.getD_eq_getElem _ _ h2] at e2
  apply List.ext_getElem (by rw [e1, e2])
  intro c h3 h4
  have := h r c hr (by rw [← e1]; exact h3)
  unfold entry at this
  rw [List.getD_eq_getElem _ _ h1, List.getD_eq_getElem _ _ h2, List.getD_eq_getElem _ _ h3,
    List.getD_eq_getElem _ _ h4] at this
  exact this

/-- One row task: it succeeds when the pivot entry is not zero, writes row `j`
in columns `i .. n` only, and the values it writes are formed from rows `j` and
`i` alone. -/
theorem rowUpdate_spec {n i j : Nat} {a : Mat} (hs : WellShaped n a) (hi : i ≤ n) (hj : j < n)
    (hp : entry a i i ≠ 0) :
    ∃ b, rowUpdate n i j a = .ok b ∧ WellShaped n b ∧
      ∀ r c, entry b r c =
        if r = j ∧ i ≤ c ∧ c ≤ n then entry a j c - entry a j i / entry a i i * entry a i c
        else entry a r c := by
  have hsub := subtractRow_spec n i j (entry a j i / entry a i i) a hs hj hi
  refine ⟨_, ?_, hsub.1, fun r c => ?_⟩
  · unfold rowUpdate
    rw [fdiv_ok _ _ hp]
  · rw [hsub.2]
    by_cases h : r = j ∧ i ≤ c ∧ c ≤ n
    · rw [if_pos h, if_pos h, h.1]
    · rw [if_neg h, if_neg h]

theorem runTasks_spec {n i : Nat} (hi : i < n) (js : List Nat) :
    ∀ a : Mat, WellShaped n a → entry a i i ≠ 0 → js.Nodup →
      (∀ j, j ∈ js → i < j ∧ j < n) →
      ∃ b, runTasks n i js a = .ok b ∧ WellShaped n b ∧
        ∀ r c, entry b r c =
          if r ∈ js ∧ i ≤ c ∧ c ≤ n then entry a r c - entry a r i / entry a i i * entry a i c
          else entry a r c := by
  induction js with
  | nil =>
    intro a hs _ _ _
    refine ⟨a, rfl, hs, fun r c => ?_⟩
    rw [if_neg (by simp)]
  | cons j js ih =>
    intro a hs hp hnd hmem
    obtain ⟨hj1, hj2⟩ := hmem j (List.mem_cons_self j js)
    obtain ⟨a1, ha1, hs1, he1⟩ := rowUpdate_spec hs (le_of_lt hi) hj2 hp
    have hjnot : j ∉ js := (List.nodup_cons.mp hnd).1
    have hpiv : entry a1 i i = entry a i i := by rw [he1, if_neg (by omega)]
    obtain ⟨b, hb, hsb, heb⟩ := ih a1 hs1 (by rw [hpiv]; exact hp) (List.nodup_cons.mp hnd).2
      (fun k hk => hmem k (List.mem_cons_of_mem j hk))
    refine ⟨b, ?_, hsb, fun r c => ?_⟩
    · simp only [runTasks, ha1]
      exact hb
    · rw [heb]
      have hrow_i : ∀ c, entry a1 i c = entry a i c := fun c => by
        rw [he1, if_neg (by omega)]
      by_cases hr : r ∈ js
      · have hrj : r ≠ j := fun e => hjnot (e ▸ hr)
        have hrow_r : ∀ c, entry a1 r c = entry a r c := fun c => by
          rw [he1, if_neg (fun h => hrj h.1)]
        by_cases hc : i ≤ c ∧ c ≤ n
        · rw [if_pos ⟨hr, hc⟩, if_pos ⟨List.mem_cons_of_mem j hr, hc⟩, hrow_r, hrow_r, hrow_i,
            hrow_i]
        · rw [if_neg (fun h => hc h.2), if_neg (fun h => hc h.2), hrow_r]
      · rw [if_neg (fun h => hr h.1), he1]
        by_cases hrj : r = j
        · subst hrj
          by_cases hc : i ≤ c ∧ c ≤ n
          · rw [if_pos ⟨rfl, hc⟩, if_pos ⟨List.mem_cons_self r js, hc⟩]
          · rw [if_neg (fun h => hc h.2), if_neg (fun h => hc h.2)]
        · rw [if_neg (fun h => hrj h.1), if_neg]
          intro h
          rcases List.mem_cons.mp h.1 with h1 | h1
          · exact hrj h1
          · exact hr h1

theorem runTasks_zero_pivot (n i : Nat) (a : Mat) (hz : entry a i i = 0) (j : Nat)
    (js : List Nat) : runTasks n i (j :: js) a = .error .zeroDivisor := by
  simp only [runTasks, rowUpdate, hz, fdiv]
  rfl

theorem eliminate_zero_pivot (n i : Nat) (a : Mat) (hz : entry a i i = 0) (c : Nat) :
    forLoopE (i + 1) (fun j b => rowUpdate n i j b) (c + 1) a = .error .zeroDivisor := by
  induction c with
  | zero =>
    have h0 : forLoopE (i + 1) (fun j b => rowUpdate n i j b) 0 a = .ok a := rfl
    rw [forLoopE_succ_ok _ _ _ _ _ h0]
    simp only [rowUpdate, hz, fdiv]
    rfl
  | succ c ih => rw [forLoopE_succ_error _ _ _ _ _ ih]

/-- The row tasks of rows `i+1 .. n-1`, run in any order, give the outcome of
the ascending loop. -/
theorem runTasks_perm {n i : Nat} {a : Mat} (hs : WellShaped n a) (hi : i < n) (js : List Nat)
    (hperm : List.Perm js (List.range' (i + 1) (n - (i + 1)))) :
    runTasks n i js a = parallelEliminate n n i a := by
  by_cases hp : entry a i i = 0
  · unfold parallelEliminate
    cases hc : n - (i + 1) with
    | zero =>
      rw [hc] at hperm
      have : js = [] := List.Perm.eq_nil hperm
      rw [this]
      rfl
    | succ c =>
      rw [eliminate_zero_pivot n i a hp c]
      cases js with
      | nil =>
        have := hperm.length_eq
        rw [hc] at this
        simp at this
      | cons j js => exact runTasks_zero_pivot n i a hp j js
  · obtain ⟨b, hb, hsb, he⟩ := eliminate_spec n i a hs hi hp
    have hb1 : parallelEliminate n n i a = .ok b := hb
    have hmem : ∀ j, j ∈ js ↔ i < j ∧ j < n := by
      intro j
      rw [hperm.mem_iff, List.mem_range'_1]
      omega
    obtain ⟨b2, hb2, hsb2, he2⟩ := runTasks_spec hi js a hs hp
      (hperm.nodup_iff.mpr (List.nodup_range' _ _)) (fun j hj => (hmem j).mp hj)
    have hbb : b2 = b := by
      apply mat_ext hsb2 hsb
      intro r c _ hc
      rw [he2, he]
      by_cases h1 : i < r ∧ r < n
      · by_cases h2 : i ≤ c
        · rw [if_pos ⟨(hmem r).mpr h1, h2, by omega⟩, if_pos ⟨h1.1, h1.2, by omega⟩, if_pos h2]
        · rw [if_neg (fun h => h2 h.2.1), if_pos ⟨h1.1, h1.2, by omega⟩, if_neg h2]
      · rw [if_neg (fun h => h1 ((hmem r).mp h.1)), if_neg (fun h => h1 ⟨h.1, h.2.1⟩)]
    rw [hb2, hb1, hbb]

theorem parallelEliminate_rows_above {n i : Nat} {a b : Mat} (hs : WellShaped n a) (hi : i < n)
    (h : parallelEliminate n n i a = .ok b) : ∀ r c, r ≤ i → entry b r c = entry a r c := by
  intro r c hr
  by_cases hp : entry a i i = 0
  · unfold parallelEliminate at h
    cases hc : n - (i + 1) with
    | zero =>
      rw [hc] at h
      have : a = b := Except.ok.inj h
      rw [this]
    | succ k =>
      rw [hc, eliminate_zero_pivot n i a hp k] at h
      cases h
  · obtain ⟨b1, hb1, _, he⟩ := eliminate_spec n i a hs hi hp
    have hb2 : parallelEliminate n n i a = .ok b1 := hb1
    rw [hb2] at h
    have : b1 = b := Except.ok.inj h
    rw [← this, he, if_neg (by omega)]

/-- C16: in pivot step `i` of `solveSLAUParallelGauss` on an `n x (n+1)` working
matrix, the task of row `j` writes row `j` only, in columns `i .. n`, with
values formed from rows `j` and `i` of the matrix it starts from; so running
the tasks of rows `i+1 .. n-1` in any order gives the outcome of the ascending
order, for the batch and for the whole pivot step, and rows `0 .. i` are left
unchanged. -/
theorem c16_row_tasks_commute (n i : Nat) (a : Mat) (js : List Nat) (hs : WellShaped n a)
    (hi : i < n) (hperm : List.Perm js (List.range' (i + 1) (n - (i + 1)))) :
    (∀ j b, i < j → j < n → rowUpdate n i j a = .ok b →
        ∀ r c, entry b r c =
          if r = j ∧ i ≤ c ∧ c ≤ n then entry a j c - entry a j i / entry a i i * entry a i c
          else entry a r c) ∧
      runTasks n i js a = parallelEliminate n n i a ∧
      (∀ b, parallelEliminate n n i a = .ok b → ∀ r c, r ≤ i → entry b r c = entry a r c) ∧
      parallelStepOrdered n n i js a = parallelStep n n i a := by
  refine ⟨fun j b _ hj2 hb => ?_, runTasks_perm hs hi js hperm,
    fun b hb => parallelEliminate_rows_above hs hi hb, ?_⟩
  · by_cases hp : entry a i i = 0
    · simp only [rowUpdate, hp, fdiv] at hb
      cases hb
    · obtain ⟨b1, hb1, _, he⟩ := rowUpdate_spec hs (le_of_lt hi) hj2 hp
      rw [hb1] at hb
      have : b1 = b := Except.ok.inj hb
      rw [← this]
      exact he
  · obtain ⟨_, hp, _⟩ := findPivot_spec n i a hi
    have hsw : WellShaped n (if findPivot n i a ≠ i then swapRows a i (findPivot n i a) else a) := by
      split_ifs
      · exact wellShaped_swapRows hs i _ hi hp
      · exact hs
    unfold parallelStepOrdered parallelStep
    simp only []
    rw [runTasks_perm hsw hi js hperm]

/-- Witness for C16: step `0` after the exchange on the 3x4 example matrix, the
tasks of rows `2` and `1` run in descending order. -/
theorem c16_row_tasks_commute_witness :
    runTasks 3 0 [2, 1] [[-3, -1, 2, -11], [2, 1, -1, 8], [-2, 1, 2, -3]]
        = parallelEliminate 3 3 0 [[-3, -1, 2, -11], [2, 1, -1, 8], [-2, 1, 2, -3]] ∧
      parallelEliminate 3 3 0 [[-3, -1, 2, -11], [2, 1, -1, 8], [-2, 1, 2, -3]]
        = .ok [[-3, -1, 2, -11], [0, 1 / 3, 1 / 3, 2 / 3], [0, 5 / 3, 2 / 3, 13 / 3]] :=
  ⟨(c16_row_tasks_commute 3 0 [[-3, -1, 2, -11], [2, 1, -1, 8], [-2, 1, 2, -3]] [2, 1]
      (by decide) (by decide) (List.Perm.swap _ _ _)).2.1, by decide!⟩

theorem fdiv_zero (x : ℚ) : fdiv x 0 = .error .zeroDivisor := by
  unfold fdiv
  rw [if_pos rfl]

/-- Back-substitution of the concurrent file divides by every diagonal entry:
one exact zero among the rows it handles ends the run at a division by zero. -/
theorem parallelBack_zero_diagonal (n m : Nat) (a : Mat) :
    ∀ c (sol : List ℚ), (∃ i, i < c ∧ entry a i i = 0) →
      parallelBack n m a c sol = .error .zeroDivisor := by
  intro c
  induction c with
  | zero =>
    intro sol h
    obtain ⟨i, hi, _⟩ := h
    omega
  | succ c ih =>
    intro sol h
    obtain ⟨i, hi, hz⟩ := h
    unfold parallelBack
    by_cases hc : entry a c c = 0
    · rw [hc, fdiv_zero]
    · rw [fdiv_ok _ _ hc]
      apply ih
      refine ⟨i, ?_, hz⟩
      by_cases hic : i = c
      · subst hic; exact absurd hz hc
      · omega

/-- C12 fails on the code: on `[[0,1,1],[0,1,1]]` the forward pass leaves the
matrix as it is, back-substitution finds `solution[1] = 1`, and in row `0` the
diagonal entry is zero with `|a[0][2] - sum| = 0`; the rule of section 4.2 sets
`solution[0] = 0` and returns `(0, 1)`, which solves the system, while the code
tests `|a[0][2]| = 1` and returns the inconsistency error.  Conversely on
`[[0,1,0],[0,1,1]]` the code returns `(0, 1)` where the rule of section 4.2
fails with the inconsistency error. -/
theorem c12_zero_pivot_rule_differs :
    (forwardSteps 2 2 [[0, 1, 1], [0, 1, 1]] = .ok [[0, 1, 1], [0, 1, 1]] ∧
      backSubstitute 2 [[0, 1, 1], [0, 1, 1]] 2 [0, 0] = .error .inconsistentBackSubst ∧
      backSubstituteSpec 2 [[0, 1, 1], [0, 1, 1]] 2 [0, 0] = .ok [0, 1] ∧
      gaussianElimination [[0, 1, 1], [0, 1, 1]] = .error .inconsistentBackSubst ∧
      lhs 2 [[0, 1, 1], [0, 1, 1]] [0, 1] 0 = 1 ∧ lhs 2 [[0, 1, 1], [0, 1, 1]] [0, 1] 1 = 1) ∧
    (forwardSteps 2 2 [[0, 1, 0], [0, 1, 1]] = .ok [[0, 1, 0], [0, 1, 1]] ∧
      backSubstitute 2 [[0, 1, 0], [0, 1, 1]] 2 [0, 0] = .ok [0, 1] ∧
      backSubstituteSpec 2 [[0, 1, 0], [0, 1, 1]] 2 [0, 0] = .error .inconsistentBackSubst ∧
      gaussianElimination [[0, 1, 0], [0, 1, 1]] = .ok [0, 1]) := by
  refine ⟨⟨by decide!, by decide!, by decide!, by decide!, ?_, ?_⟩,
    ⟨by decide!, by decide!, by decide!, by decide!⟩⟩
  · simp [lhs, entry, Finset.sum_range_succ]
  · simp [lhs, entry, Finset.sum_range_succ]

/-- C13 fails on the code: on `[[1e-10, 1, 1], [5e-11, 1, 2]]` step `0` of
`gaussianElimination` keeps row `0` as the pivot row, its diagonal entry
`1e-10` is below the tolerance, no inconsistency is signalled, and yet row `1`
is changed to `(0, 1/2, 3/2)` with the factor `5e-11 / 1e-10`; the same step of
the concurrent solver skips the elimination. -/
theorem c13_small_pivot_not_skipped :
    findPivot 2 0 [[1 / 10000000000, 1, 1], [1 / 20000000000, 1, 2]] = 0 ∧
      Gauss.abs (entry (swapped 2 0 [[1 / 10000000000, 1, 1], [1 / 20000000000, 1, 2]]) 0 0)
        < tol ∧
      pivotStep 2 0 [[1 / 10000000000, 1, 1], [1 / 20000000000, 1, 2]]
        = .ok [[1 / 10000000000, 1, 1], [0, 1 / 2, 3 / 2]] ∧
      fdiv (1 / 20000000000) (1 / 10000000000) = .ok (1 / 2) ∧
      parallelStep 2 2 0 [[1 / 10000000000, 1, 1], [1 / 20000000000, 1, 2]]
        = .ok [[1 / 10000000000, 1, 1], [1 / 20000000000, 1, 2]] := by
  decide!

/-- C15 fails on the code: on the consistent pair `[[1,1,2],[2,2,4]]` the
forward pass of `solveSLAUParallelGauss` reaches `[[2,2,4],[0,0,0]]`, skips
pivot step `1` because `|matrix[1][1]| < 1e-9`, and back-substitution then
divides by that zero entry; the rule of section 4.2 would return `(2, 0)`. -/
theorem c15_skipped_pivot_divided :
    parallelForward 2 2 1 [[1, 1, 2], [2, 2, 4]] = .ok [[2, 2, 4], [0, 0, 0]] ∧
      Gauss.abs (entry [[2, 2, 4], [0, 0, 0]] 1 1) < tol ∧
      parallelStep 2 2 1 [[2, 2, 4], [0, 0, 0]] = .ok [[2, 2, 4], [0, 0, 0]] ∧
      parallelForward 2 2 2 [[1, 1, 2], [2, 2, 4]] = .ok [[2, 2, 4], [0, 0, 0]] ∧
      parallelBack 2 2 [[2, 2, 4], [0, 0, 0]] 2 [0, 0] = .error .zeroDivisor ∧
      solveSLAUParallelGauss [[1, 1, 2], [2, 2, 4]] = .error .zeroDivisor ∧
      backSubstituteSpec 2 [[2, 2, 4], [0, 0, 0]] 2 [0, 0] = .ok [2, 0] := by
  decide!


/-! ## The loader -/

/-- What the shape test of Gauss.go does guarantee, for every parser and every
input: a returned matrix has at least one row and its first row has one entry
more than there are rows. -/
theorem readMatrixFromFile_first_row (parse : List Char → Option ℚ) (lines : List (List Char))
    (m : Mat) (h : readMatrixFromFile parse lines = .ok m) :
    1 ≤ m.length ∧ (m.getD 0 []).length = m.length + 1 := by
  unfold readMatrixFromFile at h
  cases hr : readRows parse lines with
  | error e => rw [hr] at h; cases h
  | ok matrix =>
    rw [hr] at h
    simp only [] at h
    split_ifs at h with h1 h2
    have : matrix = m := Except.ok.inj h
    subst this
    constructor
    · omega
    · by_contra hne
      exact h2 (fun e => hne e.symm)

/-- C11 fails on the code: the two lines `1 2 3` and `4 5` are returned as the
matrix `[[1,2,3],[4,5]]` without an error although its second row has two
entries, not three, and the lines `1 2 3` and a single blank are returned as
`[[1,2,3],[]]`, the white-space line contributing an empty row; only the first
row is compared with the row count.  The loader of the concurrent file rejects
both inputs. -/
theorem c11_loader_accepts_ragged_rows :
    readMatrixFromFile parseDecimal ["1 2 3".toList, "4 5".toList] = .ok [[1, 2, 3], [4, 5]] ∧
      ¬ WellShaped 2 [[1, 2, 3], [4, 5]] ∧
      readMatrixFromFile parseDecimal ["1 2 3".toList, " ".toList] = .ok [[1, 2, 3], []] ∧
      ¬ WellShaped 2 [[1, 2, 3], []] ∧
      readMatrixFromFileConcurrent parseDecimal ["1 2 3".toList, "4 5".toList]
        = .error (.columnMismatch 2) ∧
      readMatrixFromFileConcurrent parseDecimal ["1 2 3".toList, " ".toList]
        = .error (.columnMismatch 2) := by
  decide!


/-! ## The bounds-checked run -/

theorem forLoopE_pure {σ : Type} (s : Nat) (bodyE : Nat → σ → Except Failure σ)
    (body : Nat → σ → σ) (Inv : σ → Prop) (c : Nat)
    (h : ∀ j st, s ≤ j → j < s + c → Inv st → bodyE j st = .ok (body j st) ∧ Inv (body j st))
    (st : σ) (h0 : Inv st) :
    forLoopE s bodyE c st = .ok (forLoop s body c st) ∧ Inv (forLoop s body c st) := by
  induction c with
  | zero => exact ⟨rfl, h0⟩
  | succ c ih =>
    obtain ⟨h1, h2⟩ := ih (fun j st hj1 hj2 hinv => h j st hj1 (by omega) hinv)
    obtain ⟨h3, h4⟩ := h (s + c) _ (by omega) (by omega) h2
    rw [forLoopE_succ_ok _ _ _ _ _ h1]
    exact ⟨h3, h4⟩

theorem forLoopE_congr {σ : Type} (s : Nat) (bodyC bodyE : Nat → σ → Except Failure σ)
    (Inv : σ → Prop) (c : Nat)
    (h : ∀ j st, s ≤ j → j < s + c → Inv st →
      bodyC j st = bodyE j st ∧ ∀ st1, bodyE j st = .ok st1 → Inv st1)
    (st : σ) (h0 : Inv st) :
    forLoopE s bodyC c st = forLoopE s bodyE c st ∧
      ∀ st1, forLoopE s bodyE c st = .ok st1 → Inv st1 := by
  induction c with
  | zero =>
    refine ⟨rfl, fun st1 h1 => ?_⟩
    have : st = st1 := Except.ok.inj h1
    rw [← this]; exact h0
  | succ c ih =>
    obtain ⟨h1, h2⟩ := ih (fun j st hj1 hj2 hinv => h j st hj1 (by omega) hinv)
    cases hprev : forLoopE s bodyE c st with
    | error e =>
      rw [forLoopE_succ_error _ _ _ _ _ hprev, forLoopE_succ_error _ _ _ _ _ (h1.trans hprev)]
      exact ⟨rfl, fun st1 hst => by cases hst⟩
    | ok st1 =>
      obtain ⟨h3, h4⟩ := h (s + c) st1 (by omega) (by omega) (h2 st1 hprev)
      rw [forLoopE_succ_ok _ _ _ _ _ hprev, forLoopE_succ_ok _ _ _ _ _ (h1.trans hprev), h3]
      exact ⟨rfl, h4⟩

theorem readAt_ok {n : Nat} {a : Mat} (hs : WellShaped n a) (i k : Nat) (hi : i < n)
    (hk : k ≤ n) : readAt a i k = .ok (entry a i k) := by
  unfold readAt
  rw [if_pos ⟨by rw [hs.1]; exact hi, by rw [hs.2 i hi]; omega⟩]

theorem writeAt_ok {n : Nat} {a : Mat} (hs : WellShaped n a) (j k : Nat) (v : ℚ) (hj : j < n)
    (hk : k ≤ n) : writeAt a j k v = .ok (setEntry a j k v) := by
  unfold writeAt
  rw [if_pos ⟨by rw [hs.1]; exact hj, by rw [hs.2 j hj]; omega⟩]

theorem swapRowsChecked_ok {n : Nat} {a : Mat} (hs : WellShaped n a) (i p : Nat) (hi : i < n)
    (hp : p < n) : swapRowsChecked a i p = .ok (swapRows a i p) := by
  unfold swapRowsChecked
  rw [if_pos ⟨by rw [hs.1]; exact hi, by rw [hs.1]; exact hp⟩]

theorem findPivotChecked_eq {n : Nat} {a : Mat} (hs : WellShaped n a) (i : Nat) (hi : i < n) :
    findPivotChecked n i a = .ok (findPivot n i a) := by
  unfold findPivotChecked findPivot
  refine (forLoopE_pure (i + 1) _ _ (fun p => p < n) (n - (i + 1)) ?_ i hi).1
  intro j p hj1 hj2 hp
  rw [readAt_ok hs j i (by omega) (by omega), readAt_ok hs p i hp (by omega)]
  refine ⟨rfl, ?_⟩
  show (if _ then j else p) < n
  split_ifs
  · omega
  · exact hp

theorem allZerosRowChecked_eq {n : Nat} {a : Mat} (hs : WellShaped n a) (i lo : Nat)
    (hi : i < n) : allZerosRowChecked a i lo n = .ok (allZerosRow a i lo n) := by
  unfold allZerosRowChecked allZerosRow
  refine (forLoopE_pure lo _ _ (fun _ => True) (n - lo) ?_ true trivial).1
  intro k z hk1 hk2 _
  rw [readAt_ok hs i k hi (by omega)]
  exact ⟨rfl, trivial⟩

theorem subtractRowChecked_eq {n : Nat} {a : Mat} (hs : WellShaped n a) (i j : Nat) (f : ℚ)
    (hi : i < n) (hj : j < n) :
    subtractRowChecked n i j f a = .ok (subtractRow n i j f a) := by
  unfold subtractRowChecked subtractRow
  refine (forLoopE_pure i _ _ (fun b => WellShaped n b) (n + 1 - i) ?_ a hs).1
  intro k b hk1 hk2 hb
  rw [readAt_ok hb j k hj (by omega), readAt_ok hb i k hi (by omega)]
  exact ⟨writeAt_ok hb j k _ hj (by omega), wellShaped_setEntry hb j k _ hj⟩

theorem rowUpdateChecked_eq {n : Nat} {a : Mat} (hs : WellShaped n a) (i j : Nat)
    (hi : i < n) (hj : j < n) : rowUpdateChecked n i j a = rowUpdate n i j a := by
  unfold rowUpdateChecked rowUpdate
  rw [readAt_ok hs j i hj (by omega), readAt_ok hs i i hi (by omega)]
  simp only []
  cases fdiv (entry a j i) (entry a i i) with
  | error e => rfl
  | ok f => exact subtractRowChecked_eq hs i j f hi hj

theorem wellShaped_rowUpdate {n i j : Nat} {a b : Mat} (hs : WellShaped n a) (hi : i < n)
    (hj : j < n) (h : rowUpdate n i j a = .ok b) : WellShaped n b := by
  unfold rowUpdate at h
  cases hf : fdiv (entry a j i) (entry a i i) with
  | error e => rw [hf] at h; cases h
  | ok f =>
    rw [hf] at h
    have : subtractRow n i j f a = b := Except.ok.inj h
    rw [← this]
    exact (subtractRow_spec n i j f a hs hj (le_of_lt hi)).1

theorem eliminateChecked_eq {n : Nat} {a : Mat} (hs : WellShaped n a) (i : Nat) (hi : i < n) :
    eliminateChecked n i a = eliminate n i a := by
  unfold eliminateChecked eliminate
  refine (forLoopE_congr (i + 1) _ _ (fun b => WellShaped n b) (n - (i + 1)) ?_ a hs).1
  intro j b hj1 hj2 hb
  exact ⟨rowUpdateChecked_eq hb i j hi (by omega),
    fun b1 h1 => wellShaped_rowUpdate hb hi (by omega) h1⟩

theorem pivotStepChecked_eq {n : Nat} {a : Mat} (hs : WellShaped n a) (i : Nat) (hi : i < n) :
    pivotStepChecked n i a = pivotStep n i a := by
  obtain ⟨_, hp, _⟩ := findPivot_spec n i a hi
  have hss : WellShaped n (swapRows a i (findPivot n i a)) := wellShaped_swapRows hs i _ hi hp
  unfold pivotStepChecked pivotStep
  rw [findPivotChecked_eq hs i hi]
  simp only []
  rw [swapRowsChecked_ok hs i _ hi hp]
  simp only []
  rw [readAt_ok hss i i hi (by omega)]
  simp only []
  rw [allZerosRowChecked_eq hss i i hi, readAt_ok hss i n hi (le_refl _),
    eliminateChecked_eq hss i hi]

theorem wellShaped_pivotStep {n i : Nat} {a b : Mat} (hs : WellShaped n a) (hi : i < n)
    (h : pivotStep n i a = .ok b) : WellShaped n b := by
  have hss := wellShaped_swapped hs i hi
  rcases pivotStep_ok_cases h with ⟨_, hb⟩ | ⟨hp, hb⟩
  · rw [hb]; exact hss
  · obtain ⟨b1, hb1, hsb, _⟩ := eliminate_spec n i _ hss hi hp
    rw [hb1] at hb
    have : b1 = b := Except.ok.inj hb
    rw [← this]; exact hsb

theorem forwardChecked_eq {n : Nat} {m : Mat} (hs : WellShaped n m) (k : Nat) (hk : k ≤ n) :
    forLoopE 0 (fun i b => pivotStepChecked n i b) k m = forwardSteps n k m := by
  unfold forwardSteps
  refine (forLoopE_congr 0 _ _ (fun b => WellShaped n b) k ?_ m hs).1
  intro i b _ hi2 hb
  exact ⟨pivotStepChecked_eq hb i (by omega),
    fun b1 h1 => wellShaped_pivotStep hb (by omega) h1⟩


theorem sweepChecked_eq {n : Nat} {a : Mat} (hs : WellShaped n a) :
    sweepChecked n a = sweep n a := by
  unfold sweepChecked sweep
  refine (forLoopE_congr 0 _ _ (fun _ => True) n ?_ () trivial).1
  intro i _ _ hi _
  rw [allZerosRowChecked_eq hs i 0 (by omega), readAt_ok hs i n (by omega) (le_refl _)]
  exact ⟨rfl, fun _ _ => trivial⟩

theorem readVec_ok (x : List ℚ) (j : Nat) (hj : j < x.length) :
    readVec x j = .ok (x.getD j 0) := by
  unfold readVec
  rw [if_pos hj]

theorem writeVec_ok (x : List ℚ) (j : Nat) (v : ℚ) (hj : j < x.length) :
    writeVec x j v = .ok (x.set j v) := by
  unfold writeVec
  rw [if_pos hj]

theorem dotFromChecked_eq {n : Nat} {a : Mat} (hs : WellShaped n a) (i : Nat) (hi : i < n)
    (x : List ℚ) (hx : x.length = n) (lo c : Nat) (hc : lo + c ≤ n) :
    dotFromChecked a i x lo c = .ok (dotFrom a i x lo c) := by
  unfold dotFromChecked dotFrom
  refine (forLoopE_pure lo _ _ (fun _ => True) c ?_ 0 trivial).1
  intro j sum hj1 hj2 _
  rw [readAt_ok hs i j hi (by omega), readVec_ok x j (by omega)]
  exact ⟨rfl, trivial⟩

theorem backSubstituteChecked_eq {n : Nat} {a : Mat} (hs : WellShaped n a) :
    ∀ c, c ≤ n → ∀ sol : List ℚ, sol.length = n →
      backSubstituteChecked n a c sol = backSubstitute n a c sol := by
  intro c
  induction c with
  | zero => intro _ sol _; rfl
  | succ c ih =>
    intro hc sol hsol
    unfold backSubstituteChecked backSubstitute
    rw [readAt_ok hs c c (by omega) (by omega), readAt_ok hs c n (by omega) (le_refl _),
      dotFromChecked_eq hs c (by omega) sol hsol (c + 1) (n - (c + 1)) (by omega)]
    simp only []
    by_cases h1 : Gauss.abs (entry a c c) < tol
    · rw [if_pos h1, if_pos h1]
      by_cases h2 : Gauss.abs (entry a c n) > tol
      · rw [if_pos h2, if_pos h2]
      · rw [if_neg h2, if_neg h2, writeVec_ok sol c 0 (by omega)]
        exact ih (by omega) _ (by rw [List.length_set]; exact hsol)
    · rw [if_neg h1, if_neg h1]
      cases fdiv (entry a c n - dotFrom a c sol (c + 1) (n - (c + 1))) (entry a c c) with
      | error e => rfl
      | ok v =>
        simp only []
        rw [writeVec_ok sol c v (by omega)]
        exact ih (by omega) _ (by rw [List.length_set]; exact hsol)

theorem gaussianEliminationChecked_eq {n : Nat} {matrix : Mat} (hs : WellShaped n matrix) :
    gaussianEliminationChecked matrix = gaussianElimination matrix := by
  unfold gaussianEliminationChecked gaussianElimination
  simp only [hs.1]
  by_cases hn : n = 0
  · rw [if_pos hn, if_pos hn]
  · rw [if_neg hn, if_neg hn, forwardChecked_eq hs n (le_refl _)]
    cases hf : forwardSteps n n matrix with
    | error e => rfl
    | ok a =>
      have hsa := ((forwardSteps_invariants hs n (le_refl _)).1 a hf).1
      simp only []
      rw [sweepChecked_eq hsa]
      cases sweep n a with
      | error e => rfl
      | ok u =>
        simp only []
        exact backSubstituteChecked_eq hsa n (le_refl _) _ (by simp)

/-- Every error of a run of `gaussianElimination` on an `n x (n+1)` matrix with
`n ≥ 1` is one of the inconsistency errors. -/
theorem gaussianElimination_error_inconsistent {n : Nat} {matrix : Mat} (hn : 1 ≤ n)
    (hs : WellShaped n matrix) (e : Failure) (h : gaussianElimination matrix = .error e) :
    e.isInconsistent = true := by
  unfold gaussianElimination at h
  simp only [hs.1] at h
  rw [if_neg (by omega)] at h
  cases hf : forwardSteps n n matrix with
  | error e0 =>
    rw [hf] at h
    have : e0 = e := Except.error.inj h
    subst this
    rcases (forwardSteps_invariants hs n (le_refl _)).2 e0 hf with h1 | h1 <;> rw [h1] <;> rfl
  | ok a =>
    rw [hf] at h
    rcases sweep_cases n a with ⟨h1, _⟩ | ⟨h1, _⟩
    · simp only [h1] at h
      rw [backSubstitute_error n a n _ e h]
      rfl
    · simp only [h1] at h
      have : Failure.inconsistentAfterForward = e := Except.error.inj h
      rw [← this]
      rfl

/-- C19: for `n ≥ 1` and an `n x (n+1)` matrix, the run of `gaussianElimination`
in which every index access and every division is checked never stops at an
index out of range or at a zero divisor, and it agrees with the unchecked run.
A pivot step whose diagonal entry is exactly zero after the exchange ends with
the exchanged matrix unchanged (no row update, no division), and a
back-substitution step whose diagonal entry is below `1e-9` in absolute value
ends in the error or the placeholder branch, without the division. -/
theorem c19_divisions_and_indices_safe (n : Nat) (matrix : Mat) (hn : 1 ≤ n)
    (hs : WellShaped n matrix) :
    gaussianEliminationChecked matrix = gaussianElimination matrix ∧
      gaussianEliminationChecked matrix ≠ .error .zeroDivisor ∧
      gaussianEliminationChecked matrix ≠ .error .indexOutOfRange ∧
      (∀ i a b, entry (swapped n i a) i i = 0 → pivotStep n i a = .ok b → b = swapped n i a) ∧
      (∀ a i sol, Gauss.abs (entry a i i) < tol →
        backSubstitute n a (i + 1) sol =
          if Gauss.abs (entry a i n) > tol then .error .inconsistentBackSubst
          else backSubstitute n a i (sol.set i 0)) := by
  have heq := gaussianEliminationChecked_eq hs
  refine ⟨heq, ?_, ?_, ?_, ?_⟩
  · intro h
    rw [heq] at h
    have := gaussianElimination_error_inconsistent hn hs _ h
    cases this
  · intro h
    rw [heq] at h
    have := gaussianElimination_error_inconsistent hn hs _ h
    cases this
  · intro i a b hz hb
    rcases pivotStep_ok_cases hb with ⟨_, h1⟩ | ⟨h1, _⟩
    · exact h1
    · exact absurd hz h1
  · intro a i sol h1
    rw [backSubstitute, if_pos h1]

/-- Witness for C19: the consistent pair `[[1,1,2],[2,2,4]]`, whose second pivot
is exactly zero. -/
theorem c19_divisions_and_indices_safe_witness :
    gaussianEliminationChecked [[1, 1, 2], [2, 2, 4]] = gaussianElimination [[1, 1, 2], [2, 2, 4]] ∧
      gaussianEliminationChecked [[1, 1, 2], [2, 2, 4]] ≠ .error .zeroDivisor ∧
      gaussianEliminationChecked [[1, 1, 2], [2, 2, 4]] ≠ .error .indexOutOfRange :=
  ⟨(c19_divisions_and_indices_safe 2 [[1, 1, 2], [2, 2, 4]] (by decide) (by decide)).1,
    (c19_divisions_and_indices_safe 2 [[1, 1, 2], [2, 2, 4]] (by decide) (by decide)).2.1,
    (c19_divisions_and_indices_safe 2 [[1, 1, 2], [2, 2, 4]] (by decide) (by decide)).2.2.1⟩

/-! ## The verifier -/

theorem dotFromChecked_eq_of_le {n : Nat} {a : Mat} (hs : WellShaped n a) (i : Nat) (hi : i < n)
    (x : List ℚ) (hx : n ≤ x.length) (lo c : Nat) (hc : lo + c ≤ n) :
    dotFromChecked a i x lo c = .ok (dotFrom a i x lo c) := by
  unfold dotFromChecked dotFrom
  refine (forLoopE_pure lo _ _ (fun _ => True) c ?_ 0 trivial).1
  intro j sum hj1 hj2 _
  rw [readAt_ok hs i j hi (by omega), readVec_ok x j (by omega)]
  exact ⟨rfl, trivial⟩

theorem checkSolutionChecked_eq {n : Nat} {matrix : Mat} (hs : WellShaped n matrix)
    (solution : List ℚ) (hx : n ≤ solution.length) :
    checkSolutionChecked matrix solution = .ok (checkSolution matrix solution) := by
  unfold checkSolutionChecked checkSolution
  simp only [hs.1]
  refine (forLoopE_pure 0 _ _ (fun _ => True) n ?_ true trivial).1
  intro i ok _ hi _
  rw [dotFromChecked_eq_of_le hs i (by omega) solution hx 0 n (by omega),
    readAt_ok hs i n (by omega) (le_refl _)]
  exact ⟨rfl, trivial⟩

/-- C10, as stated, fails.  In `float64` the sum is rounded: for
`[[2^53, 1, 2^53], [0, 1, 1]]` and the vector `(1, 1)` the sum of row `0` is
`2^53 + 1`, which rounds to `2^53`, so `checkSolution` returns `true` although
the residual of row `0` is `1`.  And a vector shorter than the row count is not
compared at all: the run stops at an index out of range. -/
theorem c10_float_sum_hides_residual :
    matF [[2 ^ 53, 1, 2 ^ 53], [0, 1, 1]]
        = [[.fin false (2 ^ 53), .fin false 1, .fin false (2 ^ 53)],
            [.fin false 0, .fin false 1, .fin false 1]] ∧
      checkSolutionF (matF [[2 ^ 53, 1, 2 ^ 53], [0, 1, 1]]) [.fin false 1, .fin false 1]
        = true ∧
      lhs 2 [[2 ^ 53, 1, 2 ^ 53], [0, 1, 1]] [1, 1] 0 - entry [[2 ^ 53, 1, 2 ^ 53], [0, 1, 1]] 0 2
        = 1 ∧
      checkSolution [[2 ^ 53, 1, 2 ^ 53], [0, 1, 1]] [1, 1] = false ∧
      checkSolutionChecked [[1, 1]] [] = .error .indexOutOfRange := by
  decide!

/-- C10, amended: modelled over exact arithmetic, for an `n x (n+1)` matrix and
a solution vector of at least `n` entries, `checkSolution` makes no access out
of range and returns `true` exactly when every row `i` has
`|Σ_{j<n} matrix[i][j] * solution[j] - matrix[i][n]| ≤ 1e-9`; one row over the
tolerance makes it `false`. -/
theorem c10_checkSolution_iff (n : Nat) (matrix : Mat) (solution : List ℚ)
    (hs : WellShaped n matrix) (hx : n ≤ solution.length) :
    checkSolutionChecked matrix solution = .ok (checkSolution matrix solution) ∧
      (checkSolution matrix solution = true ↔
        ∀ i, i < n →
          |(∑ j ∈ Finset.range n, entry matrix i j * solution.getD j 0) - entry matrix i n|
            ≤ 1 / 1000000000) := by
  refine ⟨checkSolutionChecked_eq hs solution hx, ?_⟩
  rw [checkSolution_iff_residual, hs.1]
  constructor
  · intro h i hi
    have := h i hi
    rw [abs_eq] at this
    exact this
  · intro h i hi
    rw [abs_eq]
    exact h i hi

/-- Witness for C10 amended: the 3x4 example matrix and the vector `(2, 3, -1)`. -/
theorem c10_checkSolution_iff_witness :
    checkSolutionChecked [[2, 1, -1, 8], [-3, -1, 2, -11], [-2, 1, 2, -3]] [2, 3, -1]
        = .ok (checkSolution [[2, 1, -1, 8], [-3, -1, 2, -11], [-2, 1, 2, -3]] [2, 3, -1]) ∧
      (checkSolution [[2, 1, -1, 8], [-3, -1, 2, -11], [-2, 1, 2, -3]] [2, 3, -1] = true ↔
        ∀ i, i < 3 →
          |(∑ j ∈ Finset.range 3,
              entry [[2, 1, -1, 8], [-3, -1, 2, -11], [-2, 1, 2, -3]] i j
                * ([2, 3, -1] : List ℚ).getD j 0)
            - entry [[2, 1, -1, 8], [-3, -1, 2, -11], [-2, 1, 2, -3]] i 3| ≤ 1 / 1000000000) :=
  c10_checkSolution_iff 3 [[2, 1, -1, 8], [-3, -1, 2, -11], [-2, 1, 2, -3]] [2, 3, -1]
    (by decide) (by decide)

/-! ## Binary64 arithmetic on known values -/

/-- The rounding of the binary64 embedding on values whose results are known:
`0.1`, the constant `1e-9`, the tie `2^53 + 1`, the largest finite value and
the overflow threshold, the smallest subnormal and the tie below it, and the
special cases `0 * Inf`, `Inf - Inf` and comparisons with a NaN. -/
theorem f64_known_values :
    F64.ofRat (1 / 10) = .fin false (3602879701896397 / 2 ^ 55) ∧
      tolF = .fin false (4835703278458517 / 2 ^ 82) ∧
      F64.add (.fin false (2 ^ 53)) (.fin false 1) = .fin false (2 ^ 53) ∧
      F64.add (.fin false (2 ^ 53 + 2)) (.fin false 1) = .fin false (2 ^ 53 + 4) ∧
      F64.ofRat (2 ^ 1024 - 2 ^ 970 - 1) = .fin false (2 ^ 1024 - 2 ^ 971) ∧
      F64.ofRat (2 ^ 1024 - 2 ^ 970) = .infinity false ∧
      F64.ofRat (1 / 2 ^ 1074) = .fin false (1 / 2 ^ 1074) ∧
      F64.ofRat (1 / 2 ^ 1075) = .fin false 0 ∧
      F64.ofRat (-3 / 2 ^ 1076) = .fin true (1 / 2 ^ 1074) ∧
      F64.mul (.fin false 0) (.infinity false) = .nan ∧
      F64.sub (.infinity false) (.infinity false) = .nan ∧
      F64.div (.fin false 0) (.fin false 0) = .nan ∧
      F64.div (.fin false 1) (.fin true 0) = .infinity true ∧
      F64.lt tolF (absF .nan) = false ∧ F64.lt (absF .nan) tolF = false ∧
      F64.sub (.fin false 1) (.fin false 1) = .fin false 0 := by
  decide!

end Gauss
